import Mathlib

/-!
Verification development for a Brainfuck bytecode compiler, peephole
optimizer and virtual machine (repository file `brainfuck.cpp`, plus a
work-in-progress variant modelled in namespace `P0`).

The embedding is shallow and executable:
* source text is a `List Char`; the compiler `compile` mirrors
  `compile_to_bytecode` (run-length folding, the `[-]` early capture,
  bracket matching with an index stack, the two fatal structural errors);
* the optimizer `optimize` mirrors `optimize_bytecode` (value fusion,
  pointer fusion, zero-loop recognition, SetZero-run to ClearRange fusion);
* the jump resolver `jumps` mirrors the `loop_starts` precomputation;
* the virtual machine `step` / `run` mirrors `interpret_bytecode` with a
  fuel bound: a tape `Nat → Nat` of byte cells (arithmetic mod 256), a
  data pointer that is a 64-bit size_t (arithmetic mod 2^64), a program
  counter, an input byte list and an output byte list.

Recursions that the C++ expresses as loops over a shrinking index are
written with an explicit fuel argument equal to the list length, so that
every definition reduces in the kernel; fuel-irrelevance lemmas recover
the clean unfolding equations used by the symbolic proofs.
-/

deriving instance DecidableEq for Except

namespace BF

/-- Opcode catalogue of `enum Bytecode` in brainfuck.cpp. -/
inductive Bytecode where
  | INC_PTR | DEC_PTR | INC_VAL | DEC_VAL | OUTPUT | INPUT
  | LOOP_START | LOOP_END | SET_ZERO | CLEAR_RANGE
deriving DecidableEq

/-- One bytecode instruction: an opcode and its `int value` operand. -/
structure Instruction where
  op : Bytecode
  value : Int
deriving DecidableEq

instance : Inhabited Instruction := ⟨⟨Bytecode.INC_PTR, 0⟩⟩

/-- Compile-time structural errors of `compile_to_bytecode`: an unmatched
close bracket (reported with the source index of the offending character)
or an unmatched open bracket (reported with the number the C++ pushed on
the matching stack, namely `bytecode.size() - 1` at push time). -/
inductive CompErr where
  | unmatchedClose (pos : Nat)
  | unmatchedOpen (pos : Nat)
deriving DecidableEq

/-- Run-length helper: count how many copies of `c` start the list and
return the remainder, mirroring the lookahead loops
`while (i + 1 < program_size && program[i + 1] == c) ...`. -/
def countRun (c : Char) : List Char → Nat × List Char
  | [] => (0, [])
  | x :: r =>
    if x = c then
      let p := countRun c r
      (p.1 + 1, p.2)
    else (0, x :: r)

/-- The early `[-]` capture test of the compiler: when the two characters
after the current `[` exist and are `-` and `]`
(`i + 2 < program_size && program[i+1] == '-' && program[i+2] == ']'`),
return the source after the captured pattern. -/
def setZeroCapture : List Char → Option (List Char)
  | a :: b :: r2 => if a = '-' ∧ b = ']' then some r2 else none
  | _ => none

/-- Boolean success test for a compilation result. -/
def compOk {α : Type} (r : Except CompErr α) : Bool :=
  match r with
  | .ok _ => true
  | .error _ => false

/-- Worker for `compile_to_bytecode`. Arguments: fuel (strictly larger
recursions only shrink the character list, so `src.length` fuel is always
enough), remaining source, current source index `i`, bytecode emitted so
far, and the loop stack holding `bytecode.size() - 1` values of pending
open brackets. -/
def compileF : Nat → List Char → Nat → List Instruction → List Nat →
    Except CompErr (List Instruction)
  | _, [], _, acc, stack =>
    match stack with
    | [] => .ok acc
    | top :: _ => .error (.unmatchedOpen top)
  | 0, _ :: _, _, acc, _ => .ok acc
  | fuel + 1, c :: rest, i, acc, stack =>
    if c = '>' then
      let p := countRun '>' rest
      compileF fuel p.2 (i + p.1 + 1) (acc ++ [⟨.INC_PTR, (p.1 : Int) + 1⟩]) stack
    else if c = '<' then
      let p := countRun '<' rest
      compileF fuel p.2 (i + p.1 + 1) (acc ++ [⟨.DEC_PTR, (p.1 : Int) + 1⟩]) stack
    else if c = '+' then
      let p := countRun '+' rest
      compileF fuel p.2 (i + p.1 + 1) (acc ++ [⟨.INC_VAL, (p.1 : Int) + 1⟩]) stack
    else if c = '-' then
      let p := countRun '-' rest
      compileF fuel p.2 (i + p.1 + 1) (acc ++ [⟨.DEC_VAL, (p.1 : Int) + 1⟩]) stack
    else if c = '.' then
      let p := countRun '.' rest
      compileF fuel p.2 (i + p.1 + 1) (acc ++ [⟨.OUTPUT, (p.1 : Int) + 1⟩]) stack
    else if c = ',' then
      let p := countRun ',' rest
      compileF fuel p.2 (i + p.1 + 1) (acc ++ [⟨.INPUT, (p.1 : Int) + 1⟩]) stack
    else if c = '[' then
      match setZeroCapture rest with
      | some r2 =>
        compileF fuel r2 (i + 3) (acc ++ [⟨.SET_ZERO, 1⟩]) stack
      | none =>
        compileF fuel rest (i + 1) (acc ++ [⟨.LOOP_START, 0⟩]) (acc.length :: stack)
    else if c = ']' then
      match stack with
      | [] => .error (.unmatchedClose i)
      | _ :: s => compileF fuel rest (i + 1) (acc ++ [⟨.LOOP_END, 0⟩]) s
    else compileF fuel rest (i + 1) acc stack

/-- The compiler `compile_to_bytecode`: source characters to a raw
instruction stream, or a fatal structural error. -/
def compile (src : List Char) : Except CompErr (List Instruction) :=
  compileF src.length src 0 [] []

/-- Signed cell delta of a value-modification instruction (`INC_VAL v`
contributes `v`, `DEC_VAL v` contributes `-v`), `none` otherwise. -/
def valDelta : Instruction → Option Int
  | ⟨.INC_VAL, v⟩ => some v
  | ⟨.DEC_VAL, v⟩ => some (-v)
  | _ => none

/-- Signed pointer delta of a pointer-motion instruction, `none` otherwise. -/
def ptrDelta : Instruction → Option Int
  | ⟨.INC_PTR, v⟩ => some v
  | ⟨.DEC_PTR, v⟩ => some (-v)
  | _ => none

/-- Accumulate the net signed modification of a maximal leading run of
value instructions, mirroring the fusion loop at optimize_bytecode. -/
def gatherVal : List Instruction → Int → Int × List Instruction
  | [], m => (m, [])
  | x :: r, m =>
    match valDelta x with
    | some d => gatherVal r (m + d)
    | none => (m, x :: r)

/-- Accumulate the net signed motion of a maximal leading run of pointer
instructions. -/
def gatherPtr : List Instruction → Int → Int × List Instruction
  | [], m => (m, [])
  | x :: r, m =>
    match ptrDelta x with
    | some d => gatherPtr r (m + d)
    | none => (m, x :: r)

/-- Count the SetZero instructions heading the list (the
`while (bytecode[i + 1].op == SET_ZERO)` lookahead). -/
def gatherSZ : List Instruction → Nat × List Instruction
  | [] => (0, [])
  | x :: r =>
    if x.op = .SET_ZERO then
      let p := gatherSZ r
      (p.1 + 1, p.2)
    else (0, x :: r)

/-- Emit the fused value instruction: positive net sum becomes `INC_VAL`,
negative becomes `DEC_VAL`, zero emits nothing. -/
def emitVal (m : Int) : List Instruction :=
  if 0 < m then [⟨.INC_VAL, m⟩] else if m < 0 then [⟨.DEC_VAL, -m⟩] else []

/-- Emit the fused pointer instruction, same sign convention. -/
def emitPtr (m : Int) : List Instruction :=
  if 0 < m then [⟨.INC_PTR, m⟩] else if m < 0 then [⟨.DEC_PTR, -m⟩] else []

/-- Zero-loop recognition guard: when `x` is a LoopStart and the stream
continues `DEC_VAL 1, LOOP_END` with `x.value` equal to the LoopEnd value
(the condition `bytecode[i].value == bytecode[i + 2].value`), return the
stream after the pattern. -/
def zlTail (x : Instruction) : List Instruction → Option (List Instruction)
  | a :: b :: r2 =>
    if x.op = .LOOP_START ∧ a.op = .DEC_VAL ∧ a.value = 1 ∧
        b.op = .LOOP_END ∧ x.value = b.value
    then some r2 else none
  | _ => none

/-- Worker for `optimize_bytecode`, fuel-bounded (each step removes at
least one instruction, so the list length is enough fuel). The rule order
is exactly the else-if chain of the C++: value fusion, pointer fusion,
zero-loop recognition, SetZero-run fusion, default copy. -/
def optimizeF : Nat → List Instruction → List Instruction
  | _, [] => []
  | 0, l => l
  | fuel + 1, x :: rest =>
    match valDelta x with
    | some d =>
      let p := gatherVal rest d
      emitVal p.1 ++ optimizeF fuel p.2
    | none =>
      match ptrDelta x with
      | some d =>
        let p := gatherPtr rest d
        emitPtr p.1 ++ optimizeF fuel p.2
      | none =>
        match zlTail x rest with
        | some r2 => ⟨.SET_ZERO, 0⟩ :: optimizeF fuel r2
        | none =>
          if x.op = .SET_ZERO ∧ rest ≠ [] then
            let p := gatherSZ rest
            (if 0 < p.1 then [⟨.CLEAR_RANGE, (p.1 : Int) + 1⟩] else [x]) ++
              optimizeF fuel p.2
          else x :: optimizeF fuel rest

/-- One pass of `optimize_bytecode`. -/
def optimize (bc : List Instruction) : List Instruction :=
  optimizeF bc.length bc

/-- The pipeline in `main` applies the optimizer seven times. -/
def optIter : Nat → List Instruction → List Instruction
  | 0, bc => bc
  | n + 1, bc => optIter n (optimize bc)

/-- Pointwise function update, used for the tape and the jump table. -/
def upd (f : Nat → Nat) (i v : Nat) : Nat → Nat :=
  fun j => if j = i then v else f j

/-- Jump resolver worker, mirroring the `loop_starts` precomputation:
push the pc of each LoopStart, pop and cross-link on each LoopEnd. An
unmatched LoopEnd leaves the table untouched (the C++ reads the top of an
empty stack there; the interpreter is only ever handed bracket-validated
streams, so the case is unreachable in the pipeline). -/
def jumpsAux : List Instruction → Nat → List Nat → (Nat → Nat) → (Nat → Nat)
  | [], _, _, js => js
  | instr :: rest, pc, stack, js =>
    match instr.op with
    | .LOOP_START => jumpsAux rest (pc + 1) (pc :: stack) js
    | .LOOP_END =>
      match stack with
      | start :: s => jumpsAux rest (pc + 1) s (upd (upd js start pc) pc start)
      | [] => jumpsAux rest (pc + 1) [] js
    | _ => jumpsAux rest (pc + 1) stack js

/-- The jump table `loop_starts` (zero-initialized vector). -/
def jumps (bc : List Instruction) : Nat → Nat :=
  jumpsAux bc 0 [] (fun _ => 0)

/-- Word size of `size_t` on the compilation target: pointer arithmetic
wraps modulo 2^64. -/
def wordSize : Nat := 2 ^ 64

/-- Reduce a signed index computation to the size_t value it produces. -/
def wrap64 (i : Int) : Nat := (i % (wordSize : Int)).toNat

/-- Unsigned-char cell arithmetic: add a signed delta modulo 256. -/
def byteAdd (c : Nat) (d : Int) : Nat := (((c : Nat) + d) % 256).toNat

/-- Execute `n` reads of the input channel, each overwriting the current
cell (`memory[ptr] = std::cin.get()`): `cur` is the cell value carried
between reads; on an exhausted channel `std::cin.get()` returns EOF = -1,
which the assignment to an unsigned char turns into 255. Returns the
final cell value and the unconsumed input. -/
def readN : Nat → List Nat → Nat → Nat × List Nat
  | 0, inp, cur => (cur, inp)
  | n + 1, [], _ => readN n [] 255
  | n + 1, b :: rest, _ => readN n rest (b % 256)

/-- Zero the `n` cells `memory[ptr + j]` for `j < n` (the ClearRange body;
the index addition is size_t arithmetic). -/
def clearCells (t : Nat → Nat) (ptr : Nat) : Nat → Nat → Nat
  | 0 => t
  | j + 1 => upd (clearCells t ptr j) (wrap64 ((ptr : Int) + (j : Int))) 0

/-- Machine state of `interpret_bytecode`: the byte tape, the size_t data
pointer, the program counter, and the two byte channels. -/
structure State where
  tape : Nat → Nat
  ptr : Nat
  pc : Nat
  input : List Nat
  output : List Nat

/-- Fresh machine state: all cells zero, pointer and pc zero. -/
def initState (input : List Nat) : State :=
  ⟨fun _ => 0, 0, 0, input, []⟩

/-- One dispatch of the execution loop of `interpret_bytecode`. The
unconditional `++pc` of the `for` loop is folded into each case; a taken
LoopEnd branch sets `pc = loop_starts[pc] - 1` and the `++pc` brings it
back to the matching LoopStart, hence `pc := js s.pc` there. -/
def step (prog : List Instruction) (js : Nat → Nat) (s : State) : State :=
  match prog.get? s.pc with
  | none => { s with pc := s.pc + 1 }
  | some instr =>
    match instr.op with
    | .INC_PTR => { s with ptr := wrap64 ((s.ptr : Int) + instr.value), pc := s.pc + 1 }
    | .DEC_PTR => { s with ptr := wrap64 ((s.ptr : Int) - instr.value), pc := s.pc + 1 }
    | .INC_VAL =>
      { s with tape := upd s.tape s.ptr (byteAdd (s.tape s.ptr) instr.value),
               pc := s.pc + 1 }
    | .DEC_VAL =>
      { s with tape := upd s.tape s.ptr (byteAdd (s.tape s.ptr) (-instr.value)),
               pc := s.pc + 1 }
    | .OUTPUT =>
      { s with output := s.output ++ List.replicate instr.value.toNat (s.tape s.ptr),
               pc := s.pc + 1 }
    | .INPUT =>
      let p := readN instr.value.toNat s.input (s.tape s.ptr)
      { s with tape := upd s.tape s.ptr p.1, input := p.2, pc := s.pc + 1 }
    | .SET_ZERO => { s with tape := upd s.tape s.ptr 0, pc := s.pc + 1 }
    | .CLEAR_RANGE =>
      { s with tape := clearCells s.tape s.ptr instr.value.toNat,
               ptr := wrap64 ((s.ptr : Int) + instr.value), pc := s.pc + 1 }
    | .LOOP_START =>
      if s.tape s.ptr = 0 then { s with pc := js s.pc + 1 } else { s with pc := s.pc + 1 }
    | .LOOP_END =>
      if s.tape s.ptr ≠ 0 then { s with pc := js s.pc } else { s with pc := s.pc + 1 }

/-- Fuel-bounded execution loop: dispatch while the program counter is
inside the stream, stop (with the state unchanged) once it runs past the
end. -/
def run (prog : List Instruction) (js : Nat → Nat) : Nat → State → State
  | 0, s => s
  | fuel + 1, s =>
    if s.pc < prog.length then run prog js fuel (step prog js s) else s

/-- The executable pipeline of `main` without the CLI surface: compile,
seven optimizer passes, resolve jumps, execute on a fresh machine. On a
compile error the process exits with code 1 before any optimization or
execution; on success it executes and exits 0. Result: the exit code and
(on the execute path) the produced output bytes. -/
def mainModel (fuel : Nat) (src : List Char) (input : List Nat) :
    Nat × Option (List Nat) :=
  match compile src with
  | .error _ => (1, none)
  | .ok bc =>
    let obc := optIter 7 bc
    (0, some ((run obc (jumps obc) fuel (initState input)).output))

/-- Bracket-balance scan of a source text: `n` counts the open brackets
seen so far; the scan fails on a close bracket with no open one pending
and on a positive final count. This independent characterization is what
the compiler decides via its matching stack. -/
def balAux : List Char → Nat → Bool
  | [], n => n == 0
  | c :: r, n =>
    if c = '[' then balAux r (n + 1)
    else if c = ']' then (if n == 0 then false else balAux r (n - 1))
    else balAux r n

/-- An instruction stream that never reads the input channel. -/
def noInput (prog : List Instruction) : Prop :=
  ∀ x ∈ prog, x.op ≠ .INPUT

/-- Executable test that the stream the pipeline would execute for this
compilation result contains no Input instruction. -/
def pipelineNoInput (r : Except CompErr (List Instruction)) : Bool :=
  match r with
  | .ok bc => (optIter 7 bc).all (fun x => x.op != .INPUT)
  | .error _ => true

/-- The input-independent projection of a machine state: tape, pointer,
program counter and output. -/
def core (s : State) : (Nat → Nat) × Nat × Nat × List Nat :=
  (s.tape, s.ptr, s.pc, s.output)

end BF

namespace P0

/-!
Model of the work-in-progress variant `src/unnamed/part_000`: same
compiler, but a different optimizer (an if-chain over a mutable index,
with `ADD_SUBTRACT_LOOP` and `ZERO_RANGE` idioms) and an interpreter that
resolves loop jumps by scanning for the matching bracket at branch time.
The variant `main` never invokes this optimizer; the definitions below
embed it faithfully so its rules can be examined directly.
-/

/-- Opcode catalogue of `enum Bytecode` in part_000. -/
inductive Bytecode where
  | INC_PTR | DEC_PTR | INC_VAL | DEC_VAL | OUTPUT | INPUT
  | LOOP_START | LOOP_END | SET_ZERO | ZERO_RANGE | ADD_SUBTRACT_LOOP
deriving DecidableEq

/-- One bytecode instruction of the variant. -/
structure Instruction where
  op : Bytecode
  value : Int
deriving DecidableEq

instance : Inhabited Instruction := ⟨⟨Bytecode.INC_PTR, 0⟩⟩

/-- Compiler worker of part_000, character-identical to the one in
brainfuck.cpp (run-length folding, the `[-]` capture, bracket stack). -/
def compileF : Nat → List Char → Nat → List Instruction → List Nat →
    Except BF.CompErr (List Instruction)
  | _, [], _, acc, stack =>
    match stack with
    | [] => .ok acc
    | top :: _ => .error (.unmatchedOpen top)
  | 0, _ :: _, _, acc, _ => .ok acc
  | fuel + 1, c :: rest, i, acc, stack =>
    if c = '>' then
      let p := BF.countRun '>' rest
      compileF fuel p.2 (i + p.1 + 1) (acc ++ [⟨.INC_PTR, (p.1 : Int) + 1⟩]) stack
    else if c = '<' then
      let p := BF.countRun '<' rest
      compileF fuel p.2 (i + p.1 + 1) (acc ++ [⟨.DEC_PTR, (p.1 : Int) + 1⟩]) stack
    else if c = '+' then
      let p := BF.countRun '+' rest
      compileF fuel p.2 (i + p.1 + 1) (acc ++ [⟨.INC_VAL, (p.1 : Int) + 1⟩]) stack
    else if c = '-' then
      let p := BF.countRun '-' rest
      compileF fuel p.2 (i + p.1 + 1) (acc ++ [⟨.DEC_VAL, (p.1 : Int) + 1⟩]) stack
    else if c = '.' then
      let p := BF.countRun '.' rest
      compileF fuel p.2 (i + p.1 + 1) (acc ++ [⟨.OUTPUT, (p.1 : Int) + 1⟩]) stack
    else if c = ',' then
      let p := BF.countRun ',' rest
      compileF fuel p.2 (i + p.1 + 1) (acc ++ [⟨.INPUT, (p.1 : Int) + 1⟩]) stack
    else if c = '[' then
      match rest with
      | '-' :: (']' :: r2) =>
        compileF fuel r2 (i + 3) (acc ++ [⟨.SET_ZERO, 1⟩]) stack
      | _ =>
        compileF fuel rest (i + 1) (acc ++ [⟨.LOOP_START, 0⟩]) (acc.length :: stack)
    else if c = ']' then
      match stack with
      | [] => .error (.unmatchedClose i)
      | _ :: s => compileF fuel rest (i + 1) (acc ++ [⟨.LOOP_END, 0⟩]) s
    else compileF fuel rest (i + 1) acc stack

/-- The compiler `compile_to_bytecode` of part_000. -/
def compile (src : List Char) : Except BF.CompErr (List Instruction) :=
  compileF src.length src 0 [] []

/-- Indexed opcode access `bytecode[i].op` (out-of-range reads give the
default instruction; all uses below stay in range). -/
def opAt (bc : List Instruction) (i : Nat) : Bytecode := (bc.getD i default).op

/-- Indexed operand access `bytecode[i].value`. -/
def valAt (bc : List Instruction) (i : Nat) : Int := (bc.getD i default).value

/-- The merge loop of part_000 optimize_bytecode:
`while (i+1 < n && bc[i].op == bc[i+1].op) { merged.value += bc[i+1].value; ++i; }`.
Returns the accumulated value and the final index. -/
def mergeRun (bc : List Instruction) : Nat → Nat → Int → Int × Nat
  | 0, i, acc => (acc, i)
  | f + 1, i, acc =>
    if i + 1 < bc.length ∧ opAt bc i = opAt bc (i + 1) then
      mergeRun bc f (i + 1) (acc + valAt bc (i + 1))
    else (acc, i)

/-- The pointer-motion fusion loop (adds `bc[i+1].value` signed by its
direction while the next instruction moves the pointer). -/
def ptrRun (bc : List Instruction) : Nat → Nat → Int → Int × Nat
  | 0, i, acc => (acc, i)
  | f + 1, i, acc =>
    if i + 1 < bc.length ∧ (opAt bc (i + 1) = .INC_PTR ∨ opAt bc (i + 1) = .DEC_PTR) then
      ptrRun bc f (i + 1)
        (acc + (if opAt bc (i + 1) = .INC_PTR then valAt bc (i + 1) else -valAt bc (i + 1)))
    else (acc, i)

/-- The value-modification fusion loop. -/
def valRun (bc : List Instruction) : Nat → Nat → Int → Int × Nat
  | 0, i, acc => (acc, i)
  | f + 1, i, acc =>
    if i + 1 < bc.length ∧ (opAt bc (i + 1) = .INC_VAL ∨ opAt bc (i + 1) = .DEC_VAL) then
      valRun bc f (i + 1)
        (acc + (if opAt bc (i + 1) = .INC_VAL then valAt bc (i + 1) else -valAt bc (i + 1)))
    else (acc, i)

/-- One iteration body of part_000 optimize_bytecode. The four blocks
mirror the source exactly, including that the first two `if` blocks are
not chained to the later ones (so one iteration can push an instruction
several times) and that the index advanced by an earlier block is the one
the later conditions read. Returns the instructions pushed and the index
at the end of the body (before the `++i` of the `for`). -/
def optBody (bc : List Instruction) (i0 : Nat) : List Instruction × Nat :=
  let n := bc.length
  let current := bc.getD i0 default
  let pA : List Instruction × Nat :=
    if i0 + 1 < n ∧ opAt bc i0 = opAt bc (i0 + 1) then
      let m := mergeRun bc n i0 current.value
      ([⟨current.op, m.1⟩], m.2)
    else ([], i0)
  let i1 := pA.2
  let pB : List Instruction × Nat :=
    if current.op = .INC_PTR ∨ current.op = .DEC_PTR then
      let m := ptrRun bc n i1 current.value
      ([⟨if 0 < m.1 then .INC_PTR else .DEC_PTR, (m.1.natAbs : Int)⟩], m.2)
    else if current.op = .INC_VAL ∨ current.op = .DEC_VAL then
      let m := valRun bc n i1 current.value
      ([⟨if 0 < m.1 then .INC_VAL else .DEC_VAL, (m.1.natAbs : Int)⟩], m.2)
    else ([], i1)
  let i2 := pB.2
  let pC : List Instruction × Nat :=
    if current.op = .LOOP_START ∧ i2 + 2 < n ∧ opAt bc (i2 + 1) = .DEC_VAL ∧
        valAt bc (i2 + 1) = 1 ∧ opAt bc (i2 + 2) = .LOOP_END then
      ([⟨.SET_ZERO, 0⟩], i2 + 2)
    else ([], i2)
  let i3 := pC.2
  let pD : List Instruction × Nat :=
    if current.op = .LOOP_START then
      let p1 : List Instruction × Nat :=
        if i3 + 6 < n ∧ opAt bc (i3 + 1) = .DEC_VAL ∧ opAt bc (i3 + 2) = .INC_PTR ∧
            opAt bc (i3 + 3) = .INC_VAL ∧ opAt bc (i3 + 4) = .DEC_PTR ∧
            opAt bc (i3 + 5) = .LOOP_END then
          ([⟨.ADD_SUBTRACT_LOOP, valAt bc (i3 + 3)⟩], i3 + 5)
        else ([], i3)
      let i4 := p1.2
      let p2 : List Instruction × Nat :=
        if i4 + 5 < n ∧ opAt bc (i4 + 1) = .DEC_VAL ∧ valAt bc (i4 + 1) = 1 ∧
            opAt bc (i4 + 2) = .INC_PTR ∧ opAt bc (i4 + 3) = .SET_ZERO ∧
            opAt bc (i4 + 4) = .DEC_PTR ∧ opAt bc (i4 + 5) = .LOOP_END then
          ([⟨.ZERO_RANGE, 0⟩], i4 + 5)
        else ([], i4)
      (p1.1 ++ p2.1, p2.2)
    else ([current], i3)
  (pA.1 ++ pB.1 ++ pC.1 ++ pD.1, pD.2)

/-- The `for` loop of part_000 optimize_bytecode (fuel-bounded; every
iteration advances the index by at least one). -/
def optLoop (bc : List Instruction) : Nat → Nat → List Instruction
  | 0, _ => []
  | f + 1, i =>
    if i < bc.length then
      let p := optBody bc i
      p.1 ++ optLoop bc f (p.2 + 1)
    else []

/-- One pass of part_000 optimize_bytecode. -/
def optimize (bc : List Instruction) : List Instruction :=
  optLoop bc (bc.length + 1) 0

/-- Forward scan for the matching LoopEnd (`while (depth != 0) { ++pc; ... }`),
fuel-bounded by the stream length. -/
def scanEnd (bc : List Instruction) : Nat → Nat → Nat → Nat
  | 0, pc, _ => pc
  | f + 1, pc, depth =>
    let pc2 := pc + 1
    let d := match opAt bc pc2 with
      | .LOOP_START => depth + 1
      | .LOOP_END => depth - 1
      | _ => depth
    if d = 0 then pc2 else scanEnd bc f pc2 d

/-- Backward scan for the matching LoopStart. -/
def scanStart (bc : List Instruction) : Nat → Nat → Nat → Nat
  | 0, pc, _ => pc
  | f + 1, pc, depth =>
    let pc2 := pc - 1
    let d := match opAt bc pc2 with
      | .LOOP_END => depth + 1
      | .LOOP_START => depth - 1
      | _ => depth
    if d = 0 then pc2 else scanStart bc f pc2 d

/-- The ADD_SUBTRACT_LOOP body: for `j < m` add the origin cell into
`memory[ptr + j + 1]` (unsigned-char addition), re-reading the origin
each iteration as the C++ does. -/
def aslLoop (tape : Nat → Nat) (ptr : Nat) : Nat → Nat → Nat
  | 0 => tape
  | j + 1 =>
    let t := aslLoop tape ptr j
    let tgt := BF.wrap64 ((ptr : Int) + (j : Int) + 1)
    BF.upd t tgt ((t tgt + t ptr) % 256)

/-- One dispatch of the part_000 execution loop. Taken branches land one
past the scanned matching bracket (the `for` increment). -/
def step (prog : List Instruction) (s : BF.State) : BF.State :=
  match prog.get? s.pc with
  | none => { s with pc := s.pc + 1 }
  | some instr =>
    match instr.op with
    | .INC_PTR => { s with ptr := BF.wrap64 ((s.ptr : Int) + instr.value), pc := s.pc + 1 }
    | .DEC_PTR => { s with ptr := BF.wrap64 ((s.ptr : Int) - instr.value), pc := s.pc + 1 }
    | .INC_VAL =>
      { s with tape := BF.upd s.tape s.ptr (BF.byteAdd (s.tape s.ptr) instr.value),
               pc := s.pc + 1 }
    | .DEC_VAL =>
      { s with tape := BF.upd s.tape s.ptr (BF.byteAdd (s.tape s.ptr) (-instr.value)),
               pc := s.pc + 1 }
    | .OUTPUT =>
      { s with output := s.output ++ List.replicate instr.value.toNat (s.tape s.ptr),
               pc := s.pc + 1 }
    | .INPUT =>
      let p := BF.readN instr.value.toNat s.input (s.tape s.ptr)
      { s with tape := BF.upd s.tape s.ptr p.1, input := p.2, pc := s.pc + 1 }
    | .SET_ZERO => { s with tape := BF.upd s.tape s.ptr 0, pc := s.pc + 1 }
    | .ADD_SUBTRACT_LOOP =>
      let t := aslLoop s.tape s.ptr instr.value.toNat
      { s with tape := BF.upd t s.ptr 0, pc := s.pc + 1 }
    | .ZERO_RANGE =>
      { s with tape := BF.clearCells s.tape s.ptr instr.value.toNat, pc := s.pc + 1 }
    | .LOOP_START =>
      if s.tape s.ptr = 0 then { s with pc := scanEnd prog prog.length s.pc 1 + 1 }
      else { s with pc := s.pc + 1 }
    | .LOOP_END =>
      if s.tape s.ptr ≠ 0 then { s with pc := scanStart prog prog.length s.pc 1 + 1 }
      else { s with pc := s.pc + 1 }

/-- Fuel-bounded execution loop of the part_000 interpreter. -/
def run (prog : List Instruction) : Nat → BF.State → BF.State
  | 0, s => s
  | fuel + 1, s =>
    if s.pc < prog.length then run prog fuel (step prog s) else s

end P0

namespace BF

/-! Pointwise update and machine-step facts. -/

theorem upd_same (f : Nat → Nat) (i v : Nat) : upd f i v i = v := by
  simp [upd]

theorem upd_upd (f : Nat → Nat) (i a b : Nat) : upd (upd f i a) i b = upd f i b := by
  funext j
  by_cases h : j = i <;> simp [upd, h]

theorem run_stuck (prog : List Instruction) (js : Nat → Nat) (s : State)
    (h : ¬ s.pc < prog.length) : ∀ f, run prog js f s = s := by
  intro f
  cases f with
  | zero => rfl
  | succ f => rw [run, if_neg h]

/-! Basic properties of the fusion lookahead helpers. -/

theorem gatherVal_cons_some {x : Instruction} {d : Int} (h : valDelta x = some d)
    (r : List Instruction) (m : Int) : gatherVal (x :: r) m = gatherVal r (m + d) := by
  simp [gatherVal, h]

theorem gatherVal_cons_none {x : Instruction} (h : valDelta x = none)
    (r : List Instruction) (m : Int) : gatherVal (x :: r) m = (m, x :: r) := by
  simp [gatherVal, h]

theorem gatherPtr_cons_some {x : Instruction} {d : Int} (h : ptrDelta x = some d)
    (r : List Instruction) (m : Int) : gatherPtr (x :: r) m = gatherPtr r (m + d) := by
  simp [gatherPtr, h]

theorem gatherPtr_cons_none {x : Instruction} (h : ptrDelta x = none)
    (r : List Instruction) (m : Int) : gatherPtr (x :: r) m = (m, x :: r) := by
  simp [gatherPtr, h]

theorem gatherSZ_cons_sz {x : Instruction} (h : x.op = .SET_ZERO)
    (r : List Instruction) : gatherSZ (x :: r) = ((gatherSZ r).1 + 1, (gatherSZ r).2) := by
  simp [gatherSZ, h]

theorem gatherSZ_cons_not {x : Instruction} (h : x.op ≠ .SET_ZERO)
    (r : List Instruction) : gatherSZ (x :: r) = (0, x :: r) := by
  simp [gatherSZ, h]

theorem gatherVal_snd_length : ∀ (l : List Instruction) (m : Int),
    (gatherVal l m).2.length ≤ l.length := by
  intro l
  induction l with
  | nil => intro m; simp [gatherVal]
  | cons x r ih =>
    intro m
    cases h : valDelta x with
    | some d => rw [gatherVal_cons_some h]; exact (ih (m + d)).trans (Nat.le_succ _)
    | none => rw [gatherVal_cons_none h]

theorem gatherPtr_snd_length : ∀ (l : List Instruction) (m : Int),
    (gatherPtr l m).2.length ≤ l.length := by
  intro l
  induction l with
  | nil => intro m; simp [gatherPtr]
  | cons x r ih =>
    intro m
    cases h : ptrDelta x with
    | some d => rw [gatherPtr_cons_some h]; exact (ih (m + d)).trans (Nat.le_succ _)
    | none => rw [gatherPtr_cons_none h]

theorem gatherSZ_snd_length : ∀ (l : List Instruction),
    (gatherSZ l).2.length ≤ l.length := by
  intro l
  induction l with
  | nil => simp [gatherSZ]
  | cons x r ih =>
    by_cases h : x.op = .SET_ZERO
    · rw [gatherSZ_cons_sz h]; exact ih.trans (Nat.le_succ _)
    · rw [gatherSZ_cons_not h]

theorem gatherVal_snd_suffix : ∀ (l : List Instruction) (m : Int),
    (gatherVal l m).2 <:+ l := by
  intro l
  induction l with
  | nil => intro m; simp [gatherVal]
  | cons x r ih =>
    intro m
    cases h : valDelta x with
    | some d => rw [gatherVal_cons_some h]; exact (ih (m + d)).trans (List.suffix_cons x r)
    | none => rw [gatherVal_cons_none h]

theorem gatherPtr_snd_suffix : ∀ (l : List Instruction) (m : Int),
    (gatherPtr l m).2 <:+ l := by
  intro l
  induction l with
  | nil => intro m; simp [gatherPtr]
  | cons x r ih =>
    intro m
    cases h : ptrDelta x with
    | some d => rw [gatherPtr_cons_some h]; exact (ih (m + d)).trans (List.suffix_cons x r)
    | none => rw [gatherPtr_cons_none h]

theorem gatherSZ_snd_suffix : ∀ (l : List Instruction), (gatherSZ l).2 <:+ l := by
  intro l
  induction l with
  | nil => simp [gatherSZ]
  | cons x r ih =>
    by_cases h : x.op = .SET_ZERO
    · rw [gatherSZ_cons_sz h]; exact ih.trans (List.suffix_cons x r)
    · rw [gatherSZ_cons_not h]

theorem gatherVal_append (a b : List Instruction) (m : Int) :
    gatherVal (a ++ b) m =
      if (gatherVal a m).2 = [] then gatherVal b (gatherVal a m).1
      else ((gatherVal a m).1, (gatherVal a m).2 ++ b) := by
  induction a generalizing m with
  | nil => simp [gatherVal]
  | cons x a2 ih =>
    cases h : valDelta x with
    | some d => simp only [List.cons_append, gatherVal_cons_some h, ih]
    | none => simp [gatherVal_cons_none h]

theorem gatherPtr_append (a b : List Instruction) (m : Int) :
    gatherPtr (a ++ b) m =
      if (gatherPtr a m).2 = [] then gatherPtr b (gatherPtr a m).1
      else ((gatherPtr a m).1, (gatherPtr a m).2 ++ b) := by
  induction a generalizing m with
  | nil => simp [gatherPtr]
  | cons x a2 ih =>
    cases h : ptrDelta x with
    | some d => simp only [List.cons_append, gatherPtr_cons_some h, ih]
    | none => simp [gatherPtr_cons_none h]

theorem gatherSZ_append (a b : List Instruction) :
    gatherSZ (a ++ b) =
      if (gatherSZ a).2 = [] then ((gatherSZ a).1 + (gatherSZ b).1, (gatherSZ b).2)
      else ((gatherSZ a).1, (gatherSZ a).2 ++ b) := by
  induction a with
  | nil => simp [gatherSZ]
  | cons x a2 ih =>
    by_cases h : x.op = .SET_ZERO
    · simp only [List.cons_append, gatherSZ_cons_sz h, ih]
      by_cases h2 : (gatherSZ a2).2 = []
      · simp [h2, Nat.add_right_comm]
      · simp [h2]
    · simp [gatherSZ_cons_not h]

theorem gatherSZ_all {l : List Instruction} (h : ∀ x ∈ l, x.op = .SET_ZERO) :
    gatherSZ l = (l.length, []) := by
  induction l with
  | nil => simp [gatherSZ]
  | cons x r ih =>
    rw [gatherSZ_cons_sz (h x (List.mem_cons_self x r)),
      ih (fun y hy => h y (List.mem_cons_of_mem x hy))]
    simp

theorem gatherSZ_consumed_all : ∀ {l : List Instruction},
    (gatherSZ l).2 = [] → ∀ x ∈ l, x.op = .SET_ZERO := by
  intro l
  induction l with
  | nil => intro _ x hx; cases hx
  | cons y r ih =>
    intro h x hx
    by_cases hy : y.op = .SET_ZERO
    · rw [gatherSZ_cons_sz hy] at h
      rcases List.mem_cons.mp hx with rfl | hx2
      · exact hy
      · exact ih h x hx2
    · rw [gatherSZ_cons_not hy] at h
      simp at h

theorem zlTail_nil (x : Instruction) : zlTail x [] = none := rfl

theorem zlTail_one (x a : Instruction) : zlTail x [a] = none := rfl

theorem zlTail_cons2 (x a b : Instruction) (r2 : List Instruction) :
    zlTail x (a :: b :: r2) =
      if x.op = .LOOP_START ∧ a.op = .DEC_VAL ∧ a.value = 1 ∧
          b.op = .LOOP_END ∧ x.value = b.value
      then some r2 else none := rfl

theorem zlTail_none_of_op {x : Instruction} (h : x.op ≠ .LOOP_START) :
    ∀ rest, zlTail x rest = none := by
  intro rest
  match rest with
  | [] => rfl
  | [a] => rfl
  | a :: b :: r2 => rw [zlTail_cons2]; simp [h]

/-! Fuel handling and unfolding equations for the optimizer. -/

theorem optimizeF_nil (f : Nat) : optimizeF f [] = [] := by
  cases f <;> rfl

theorem optimizeF_cons (f : Nat) (x : Instruction) (rest : List Instruction) :
    optimizeF (f + 1) (x :: rest) =
      match valDelta x with
      | some d =>
        let p := gatherVal rest d
        emitVal p.1 ++ optimizeF f p.2
      | none =>
        match ptrDelta x with
        | some d =>
          let p := gatherPtr rest d
          emitPtr p.1 ++ optimizeF f p.2
        | none =>
          match zlTail x rest with
          | some r2 => ⟨.SET_ZERO, 0⟩ :: optimizeF f r2
          | none =>
            if x.op = .SET_ZERO ∧ rest ≠ [] then
              let p := gatherSZ rest
              (if 0 < p.1 then [⟨.CLEAR_RANGE, (p.1 : Int) + 1⟩] else [x]) ++
                optimizeF f p.2
            else x :: optimizeF f rest := rfl

theorem zlTail_length {x : Instruction} : ∀ {rest r2 : List Instruction},
    zlTail x rest = some r2 → rest = rest.take 2 ++ r2 ∧ r2.length + 2 = rest.length := by
  intro rest r2 h
  match rest with
  | [] => cases h
  | [a] => cases h
  | a :: b :: r =>
    rw [zlTail_cons2] at h
    by_cases hc : x.op = .LOOP_START ∧ a.op = .DEC_VAL ∧ a.value = 1 ∧
        b.op = .LOOP_END ∧ x.value = b.value
    · rw [if_pos hc] at h
      cases h
      simp
    · rw [if_neg hc] at h
      cases h

theorem optimizeF_congr : ∀ (f g : Nat) (l : List Instruction),
    l.length ≤ f → l.length ≤ g → optimizeF f l = optimizeF g l := by
  intro f
  induction f with
  | zero =>
    intro g l hf _
    have : l = [] := List.length_eq_zero.mp (Nat.le_zero.mp hf)
    subst this
    rw [optimizeF_nil, optimizeF_nil]
  | succ f ih =>
    intro g l hf hg
    cases l with
    | nil => rw [optimizeF_nil, optimizeF_nil]
    | cons x rest =>
      cases g with
      | zero => simp at hg
      | succ g =>
        rw [optimizeF_cons, optimizeF_cons]
        have hrest : rest.length ≤ f := by simpa using hf
        have hrestg : rest.length ≤ g := by simpa using hg
        cases hv : valDelta x with
        | some d =>
          simp only
          rw [ih g _ ((gatherVal_snd_length rest d).trans hrest)
            ((gatherVal_snd_length rest d).trans hrestg)]
        | none =>
          simp only
          cases hp : ptrDelta x with
          | some d =>
            simp only
            rw [ih g _ ((gatherPtr_snd_length rest d).trans hrest)
              ((gatherPtr_snd_length rest d).trans hrestg)]
          | none =>
            simp only
            cases hz : zlTail x rest with
            | some r2 =>
              simp only
              have hlen := (zlTail_length hz).2
              rw [ih g r2 (by omega) (by omega)]
            | none =>
              simp only
              by_cases hs : x.op = .SET_ZERO ∧ rest ≠ []
              · rw [if_pos hs, if_pos hs]
                rw [ih g _ ((gatherSZ_snd_length rest).trans hrest)
                  ((gatherSZ_snd_length rest).trans hrestg)]
              · rw [if_neg hs, if_neg hs, ih g rest hrest hrestg]

theorem optimize_nil : optimize [] = [] := rfl

theorem optimizeF_eq_optimize {f : Nat} {l : List Instruction} (h : l.length ≤ f) :
    optimizeF f l = optimize l :=
  optimizeF_congr f l.length l h le_rfl

theorem optimize_cons_val {x : Instruction} {d : Int} (h : valDelta x = some d)
    (rest : List Instruction) :
    optimize (x :: rest) =
      emitVal (gatherVal rest d).1 ++ optimize (gatherVal rest d).2 := by
  show optimizeF (rest.length + 1) (x :: rest) = _
  rw [optimizeF_cons, h]
  simp only
  rw [optimizeF_eq_optimize (gatherVal_snd_length rest d)]

theorem optimize_cons_ptr {x : Instruction} {d : Int} (hv : valDelta x = none)
    (h : ptrDelta x = some d) (rest : List Instruction) :
    optimize (x :: rest) =
      emitPtr (gatherPtr rest d).1 ++ optimize (gatherPtr rest d).2 := by
  show optimizeF (rest.length + 1) (x :: rest) = _
  rw [optimizeF_cons, hv, h]
  simp only
  rw [optimizeF_eq_optimize (gatherPtr_snd_length rest d)]

theorem optimize_cons_zl {x : Instruction} {rest r2 : List Instruction}
    (hv : valDelta x = none) (hp : ptrDelta x = none) (hz : zlTail x rest = some r2) :
    optimize (x :: rest) = ⟨.SET_ZERO, 0⟩ :: optimize r2 := by
  show optimizeF (rest.length + 1) (x :: rest) = _
  rw [optimizeF_cons, hv, hp, hz]
  simp only
  have hlen := (zlTail_length hz).2
  rw [optimizeF_eq_optimize (by omega)]

theorem optimize_cons_sz {x : Instruction} {rest : List Instruction}
    (hv : valDelta x = none) (hp : ptrDelta x = none) (hz : zlTail x rest = none)
    (hs : x.op = .SET_ZERO) (hne : rest ≠ []) :
    optimize (x :: rest) =
      (if 0 < (gatherSZ rest).1 then [⟨.CLEAR_RANGE, ((gatherSZ rest).1 : Int) + 1⟩]
       else [x]) ++ optimize (gatherSZ rest).2 := by
  show optimizeF (rest.length + 1) (x :: rest) = _
  rw [optimizeF_cons, hv, hp, hz]
  simp only
  rw [if_pos ⟨hs, hne⟩, optimizeF_eq_optimize (gatherSZ_snd_length rest)]

theorem optimize_cons_default {x : Instruction} {rest : List Instruction}
    (hv : valDelta x = none) (hp : ptrDelta x = none) (hz : zlTail x rest = none)
    (hs : ¬(x.op = .SET_ZERO ∧ rest ≠ [])) :
    optimize (x :: rest) = x :: optimize rest := by
  show optimizeF (rest.length + 1) (x :: rest) = _
  rw [optimizeF_cons, hv, hp, hz]
  simp only
  rw [if_neg hs, optimizeF_eq_optimize le_rfl]

theorem valDelta_eq_none {x : Instruction} (h1 : x.op ≠ .INC_VAL)
    (h2 : x.op ≠ .DEC_VAL) : valDelta x = none := by
  obtain ⟨op, val⟩ := x
  cases op <;> simp_all [valDelta]

theorem ptrDelta_eq_none {x : Instruction} (h1 : x.op ≠ .INC_PTR)
    (h2 : x.op ≠ .DEC_PTR) : ptrDelta x = none := by
  obtain ⟨op, val⟩ := x
  cases op <;> simp_all [ptrDelta]

/-- Head instance of the zero-loop rule: the pattern at the front of a
stream is rewritten to SetZero and the scan continues after it. -/
theorem optimize_zeroloop_head (post : List Instruction) (v : Int) :
    optimize (⟨.LOOP_START, v⟩ :: ⟨.DEC_VAL, 1⟩ :: ⟨.LOOP_END, v⟩ :: post) =
      ⟨.SET_ZERO, 0⟩ :: optimize post := by
  refine optimize_cons_zl rfl rfl ?_
  rw [zlTail_cons2]
  simp

/-- Wherever the three-instruction zero-loop pattern occurs in a stream,
one optimizer pass replaces it by SetZero; the rewriting of the rest of
the stream is unaffected, because the pattern stops every fusion run on
both of its sides. -/
theorem optimize_zeroloop_append (pre post : List Instruction) (v : Int) :
    optimize (pre ++ ⟨.LOOP_START, v⟩ :: ⟨.DEC_VAL, 1⟩ :: ⟨.LOOP_END, v⟩ :: post) =
      optimize pre ++ ⟨.SET_ZERO, 0⟩ :: optimize post := by
  have main : ∀ (n : Nat) (pre : List Instruction), pre.length ≤ n →
      optimize (pre ++ ⟨.LOOP_START, v⟩ :: ⟨.DEC_VAL, 1⟩ :: ⟨.LOOP_END, v⟩ :: post) =
        optimize pre ++ ⟨.SET_ZERO, 0⟩ :: optimize post := by
    intro n
    induction n with
    | zero =>
      intro pre h
      have hpre : pre = [] := List.length_eq_zero.mp (Nat.le_zero.mp h)
      subst hpre
      simpa [optimize_nil] using optimize_zeroloop_head post v
    | succ n ih =>
      intro pre hlen
      match pre with
      | [] => simpa [optimize_nil] using optimize_zeroloop_head post v
      | x :: pre2 =>
        have hlen2 : pre2.length ≤ n := by simpa using hlen
        rw [List.cons_append]
        cases hv : valDelta x with
        | some d =>
          rw [optimize_cons_val hv, optimize_cons_val hv, gatherVal_append]
          by_cases h2 : (gatherVal pre2 d).2 = []
          · rw [if_pos h2,
              gatherVal_cons_none (show valDelta ⟨.LOOP_START, v⟩ = none from rfl)]
            simp only [h2]
            rw [optimize_zeroloop_head, optimize_nil]
            simp
          · rw [if_neg h2]
            simp only
            rw [ih _ ((gatherVal_snd_length pre2 d).trans hlen2), List.append_assoc]
        | none =>
          cases hp : ptrDelta x with
          | some d =>
            rw [optimize_cons_ptr hv hp, optimize_cons_ptr hv hp, gatherPtr_append]
            by_cases h2 : (gatherPtr pre2 d).2 = []
            · rw [if_pos h2,
                gatherPtr_cons_none (show ptrDelta ⟨.LOOP_START, v⟩ = none from rfl)]
              simp only [h2]
              rw [optimize_zeroloop_head, optimize_nil]
              simp
            · rw [if_neg h2]
              simp only
              rw [ih _ ((gatherPtr_snd_length pre2 d).trans hlen2), List.append_assoc]
          | none =>
            match pre2 with
            | [] =>
              have hz : zlTail x (⟨.LOOP_START, v⟩ :: ⟨.DEC_VAL, 1⟩ ::
                  ⟨.LOOP_END, v⟩ :: post) = none := by
                rw [zlTail_cons2]; simp
              by_cases hs : x.op = .SET_ZERO
              · rw [List.nil_append,
                  optimize_cons_sz hv hp hz hs (List.cons_ne_nil _ _),
                  gatherSZ_cons_not (show Bytecode.LOOP_START ≠ .SET_ZERO by simp)]
                simp only [Nat.lt_irrefl, if_false]
                rw [optimize_zeroloop_head,
                  optimize_cons_default hv hp (zlTail_nil x) (by simp)]
                simp [optimize_nil]
              · rw [List.nil_append,
                  optimize_cons_default hv hp hz (by simp [hs]),
                  optimize_zeroloop_head,
                  optimize_cons_default hv hp (zlTail_nil x) (by simp [hs])]
                simp [optimize_nil]
            | [a] =>
              have hz : zlTail x (a :: ⟨.LOOP_START, v⟩ :: ⟨.DEC_VAL, 1⟩ ::
                  ⟨.LOOP_END, v⟩ :: post) = none := by
                rw [zlTail_cons2]; simp
              by_cases hs : x.op = .SET_ZERO
              · rw [List.cons_append, List.nil_append] at *
                rw [optimize_cons_sz hv hp hz hs (List.cons_ne_nil _ _)]
                by_cases ha : a.op = .SET_ZERO
                · rw [gatherSZ_cons_sz ha,
                    gatherSZ_cons_not (show Bytecode.LOOP_START ≠ .SET_ZERO by simp)]
                  simp only [Nat.zero_add, Nat.zero_lt_one, if_true]
                  rw [optimize_zeroloop_head,
                    optimize_cons_sz hv hp (zlTail_one x a) hs (List.cons_ne_nil _ _),
                    gatherSZ_cons_sz ha]
                  simp [gatherSZ, optimize_nil]
                · rw [gatherSZ_cons_not ha]
                  simp only [Nat.lt_irrefl, if_false]
                  have ihA := ih [a] (by simpa using hlen2)
                  rw [List.singleton_append] at ihA
                  rw [ihA,
                    optimize_cons_sz hv hp (zlTail_one x a) hs (List.cons_ne_nil _ _),
                    gatherSZ_cons_not ha]
                  simp
              · rw [List.cons_append, List.nil_append] at *
                have ihA := ih [a] (by simpa using hlen2)
                rw [List.singleton_append] at ihA
                rw [optimize_cons_default hv hp hz (by simp [hs]), ihA,
                  optimize_cons_default hv hp (zlTail_one x a) (by simp [hs])]
                simp
            | a :: b :: pre4 =>
              have hzc : zlTail x ((a :: b :: pre4) ++ ⟨.LOOP_START, v⟩ ::
                  ⟨.DEC_VAL, 1⟩ :: ⟨.LOOP_END, v⟩ :: post) =
                  if x.op = .LOOP_START ∧ a.op = .DEC_VAL ∧ a.value = 1 ∧
                      b.op = .LOOP_END ∧ x.value = b.value
                  then some (pre4 ++ ⟨.LOOP_START, v⟩ ::
                    ⟨.DEC_VAL, 1⟩ :: ⟨.LOOP_END, v⟩ :: post) else none := by
                rw [List.cons_append, List.cons_append, zlTail_cons2]
              have hz2 : zlTail x (a :: b :: pre4) =
                  if x.op = .LOOP_START ∧ a.op = .DEC_VAL ∧ a.value = 1 ∧
                      b.op = .LOOP_END ∧ x.value = b.value
                  then some pre4 else none := zlTail_cons2 x a b pre4
              by_cases hc : x.op = .LOOP_START ∧ a.op = .DEC_VAL ∧ a.value = 1 ∧
                  b.op = .LOOP_END ∧ x.value = b.value
              · rw [if_pos hc] at hzc hz2
                rw [optimize_cons_zl hv hp hzc, optimize_cons_zl hv hp hz2,
                  ih pre4 (by simp at hlen2; omega)]
                simp
              · rw [if_neg hc] at hzc hz2
                by_cases hs : x.op = .SET_ZERO
                · rw [optimize_cons_sz hv hp hzc hs (by simp),
                    optimize_cons_sz hv hp hz2 hs (List.cons_ne_nil _ _),
                    gatherSZ_append]
                  by_cases h2 : (gatherSZ (a :: b :: pre4)).2 = []
                  · rw [if_pos h2,
                      @gatherSZ_cons_not ⟨.LOOP_START, v⟩ (by simp)
                        (⟨.DEC_VAL, 1⟩ :: ⟨.LOOP_END, v⟩ :: post)]
                    have hall := gatherSZ_consumed_all h2
                    have hga : gatherSZ (a :: b :: pre4) = ((a :: b :: pre4).length, []) :=
                      gatherSZ_all hall
                    rw [hga]
                    simp only [List.length_cons, Nat.add_zero]
                    rw [optimize_zeroloop_head, optimize_nil]
                    simp
                    omega
                  · rw [if_neg h2]
                    simp only
                    rw [ih _ ((gatherSZ_snd_length (a :: b :: pre4)).trans hlen2),
                      List.append_assoc]
                · rw [optimize_cons_default hv hp hzc (by simp [hs]),
                    optimize_cons_default hv hp hz2 (by simp [hs]),
                    ih (a :: b :: pre4) hlen2]
                  simp
  exact main pre.length pre le_rfl

theorem gatherSZ_head_stop {l : List Instruction}
    (h : ∀ z, l.head? = some z → z.op ≠ .SET_ZERO) : gatherSZ l = (0, l) := by
  cases l with
  | nil => rfl
  | cons z r => exact gatherSZ_cons_not (h z rfl) r

theorem getLast?_suffix_eq {r l : List Instruction} (h : r <:+ l) (hne : r ≠ []) :
    r.getLast? = l.getLast? := by
  obtain ⟨t, rfl⟩ := h
  exact (List.getLast?_append_of_ne_nil t hne).symm

theorem getLast?_cons_of_ne_nil (x : Instruction) {l : List Instruction} (h : l ≠ []) :
    (x :: l).getLast? = l.getLast? :=
  List.getLast?_append_of_ne_nil [x] h

/-- Head instance of the range-clear rule: a stream beginning with a run
of `k ≥ 2` SetZero instructions (and continuing with a non-SetZero
instruction, if anything) opens with `ClearRange k` after one pass. -/
theorem optimize_szrun_head (run post : List Instruction)
    (hall : ∀ x ∈ run, x.op = .SET_ZERO) (hk : 2 ≤ run.length)
    (hpost : ∀ z, post.head? = some z → z.op ≠ .SET_ZERO) :
    optimize (run ++ post) =
      ⟨.CLEAR_RANGE, (run.length : Int)⟩ :: optimize post := by
  match run, hk with
  | z1 :: z2 :: zs, _ =>
    have hz1 : z1.op = .SET_ZERO := hall z1 (by simp)
    have hv : valDelta z1 = none := valDelta_eq_none (by simp [hz1]) (by simp [hz1])
    have hp : ptrDelta z1 = none := ptrDelta_eq_none (by simp [hz1]) (by simp [hz1])
    have hz : zlTail z1 ((z2 :: zs) ++ post) = none :=
      zlTail_none_of_op (by simp [hz1]) _
    rw [List.cons_append, optimize_cons_sz hv hp hz hz1 (by simp), gatherSZ_append]
    have hzs : ∀ x ∈ z2 :: zs, x.op = .SET_ZERO := by
      intro y hy
      exact hall y (List.mem_cons_of_mem z1 hy)
    rw [gatherSZ_all hzs, gatherSZ_head_stop hpost]
    simp only [List.length_cons]
    norm_num

/-- The range-clear rule in context: a maximal run of `k ≥ 2` adjacent
SetZero instructions (maximality expressed by the neighbours on both
sides not being SetZero) becomes a single `ClearRange k`, and the
surrounding stream is rewritten exactly as it would be on its own. -/
theorem optimize_szrun_append (pre run post : List Instruction)
    (hall : ∀ x ∈ run, x.op = .SET_ZERO) (hk : 2 ≤ run.length)
    (hpre : ∀ z, pre.getLast? = some z → z.op ≠ .SET_ZERO)
    (hpost : ∀ z, post.head? = some z → z.op ≠ .SET_ZERO) :
    optimize (pre ++ run ++ post) =
      optimize pre ++ ⟨.CLEAR_RANGE, (run.length : Int)⟩ :: optimize post := by
  rw [List.append_assoc]
  match run, hk with
  | z1 :: z2 :: zs, _ =>
    have hz1 : z1.op = .SET_ZERO := hall z1 (by simp)
    have hv1 : valDelta z1 = none := valDelta_eq_none (by simp [hz1]) (by simp [hz1])
    have hp1 : ptrDelta z1 = none := ptrDelta_eq_none (by simp [hz1]) (by simp [hz1])
    have hgv : ∀ m : Int, gatherVal ((z1 :: z2 :: zs) ++ post) m =
        (m, (z1 :: z2 :: zs) ++ post) := by
      intro m
      rw [List.cons_append, gatherVal_cons_none hv1]
    have hgp : ∀ m : Int, gatherPtr ((z1 :: z2 :: zs) ++ post) m =
        (m, (z1 :: z2 :: zs) ++ post) := by
      intro m
      rw [List.cons_append, gatherPtr_cons_none hp1]
    have main : ∀ (n : Nat) (pre : List Instruction), pre.length ≤ n →
        (∀ z, pre.getLast? = some z → z.op ≠ .SET_ZERO) →
        optimize (pre ++ ((z1 :: z2 :: zs) ++ post)) =
          optimize pre ++ ⟨.CLEAR_RANGE, ((z1 :: z2 :: zs).length : Int)⟩ ::
            optimize post := by
      intro n
      induction n with
      | zero =>
        intro pre h hpre2
        have hpre0 : pre = [] := List.length_eq_zero.mp (Nat.le_zero.mp h)
        subst hpre0
        simpa [optimize_nil] using optimize_szrun_head (z1 :: z2 :: zs) post hall
          (by simp) hpost
      | succ n ih =>
        intro pre hlen hpre2
        match pre with
        | [] =>
          simpa [optimize_nil] using optimize_szrun_head (z1 :: z2 :: zs) post hall
            (by simp) hpost
        | x :: pre2 =>
          have hlen2 : pre2.length ≤ n := by simpa using hlen
          rw [List.cons_append]
          cases hv : valDelta x with
          | some d =>
            rw [optimize_cons_val hv, optimize_cons_val hv, gatherVal_append]
            by_cases h2 : (gatherVal pre2 d).2 = []
            · rw [if_pos h2, hgv]
              simp only [h2]
              rw [optimize_szrun_head (z1 :: z2 :: zs) post hall (by simp) hpost,
                optimize_nil]
              simp
            · rw [if_neg h2]
              simp only
              have hsfx : (gatherVal pre2 d).2.getLast? = pre2.getLast? :=
                getLast?_suffix_eq (gatherVal_snd_suffix pre2 d) h2
              have hpre3 : ∀ z, (gatherVal pre2 d).2.getLast? = some z →
                  z.op ≠ .SET_ZERO := by
                intro z hz
                refine hpre2 z ?_
                rw [getLast?_cons_of_ne_nil x (fun hnil => h2 (by simp [hnil, gatherVal]))]
                rw [← hsfx]
                exact hz
              rw [ih _ ((gatherVal_snd_length pre2 d).trans hlen2) hpre3,
                List.append_assoc]
          | none =>
            cases hp : ptrDelta x with
            | some d =>
              rw [optimize_cons_ptr hv hp, optimize_cons_ptr hv hp, gatherPtr_append]
              by_cases h2 : (gatherPtr pre2 d).2 = []
              · rw [if_pos h2, hgp]
                simp only [h2]
                rw [optimize_szrun_head (z1 :: z2 :: zs) post hall (by simp) hpost,
                  optimize_nil]
                simp
              · rw [if_neg h2]
                simp only
                have hsfx : (gatherPtr pre2 d).2.getLast? = pre2.getLast? :=
                  getLast?_suffix_eq (gatherPtr_snd_suffix pre2 d) h2
                have hpre3 : ∀ z, (gatherPtr pre2 d).2.getLast? = some z →
                    z.op ≠ .SET_ZERO := by
                  intro z hz
                  refine hpre2 z ?_
                  rw [getLast?_cons_of_ne_nil x (fun hnil => h2 (by simp [hnil, gatherPtr]))]
                  rw [← hsfx]
                  exact hz
                rw [ih _ ((gatherPtr_snd_length pre2 d).trans hlen2) hpre3,
                  List.append_assoc]
            | none =>
              match pre2 with
              | [] =>
                have hz : zlTail x ((z1 :: z2 :: zs) ++ post) = none := by
                  rw [List.cons_append, List.cons_append, zlTail_cons2]
                  simp [hz1]
                have hxs : x.op ≠ .SET_ZERO := hpre2 x rfl
                rw [List.nil_append,
                  optimize_cons_default hv hp hz (by simp [hxs]),
                  optimize_szrun_head (z1 :: z2 :: zs) post hall (by simp) hpost,
                  optimize_cons_default hv hp (zlTail_nil x) (by simp [hxs])]
                simp [optimize_nil]
              | [a] =>
                have has : a.op ≠ .SET_ZERO := hpre2 a rfl
                have ihA := ih [a] (by simpa using hlen2) hpre2
                rw [List.singleton_append] at ihA
                simp only [List.cons_append, List.nil_append] at ihA ⊢
                have hz : zlTail x (a :: z1 :: z2 :: (zs ++ post)) = none := by
                  rw [zlTail_cons2]
                  simp [hz1]
                by_cases hs : x.op = .SET_ZERO
                · rw [optimize_cons_sz hv hp hz hs (List.cons_ne_nil _ _),
                    gatherSZ_cons_not has]
                  simp only [Nat.lt_irrefl, if_false]
                  rw [ihA,
                    optimize_cons_sz hv hp (zlTail_one x a) hs (List.cons_ne_nil _ _),
                    gatherSZ_cons_not has]
                  simp
                · rw [optimize_cons_default hv hp hz (by simp [hs]), ihA,
                    optimize_cons_default hv hp (zlTail_one x a) (by simp [hs])]
                  simp
              | a :: b :: pre4 =>
                have hzc : zlTail x ((a :: b :: pre4) ++ ((z1 :: z2 :: zs) ++ post)) =
                    if x.op = .LOOP_START ∧ a.op = .DEC_VAL ∧ a.value = 1 ∧
                        b.op = .LOOP_END ∧ x.value = b.value
                    then some (pre4 ++ ((z1 :: z2 :: zs) ++ post)) else none := by
                  rw [List.cons_append, List.cons_append, zlTail_cons2]
                have hz2 : zlTail x (a :: b :: pre4) =
                    if x.op = .LOOP_START ∧ a.op = .DEC_VAL ∧ a.value = 1 ∧
                        b.op = .LOOP_END ∧ x.value = b.value
                    then some pre4 else none := zlTail_cons2 x a b pre4
                have hplast : (a :: b :: pre4).getLast? = (x :: a :: b :: pre4).getLast? :=
                  (getLast?_cons_of_ne_nil x (List.cons_ne_nil _ _)).symm
                by_cases hc : x.op = .LOOP_START ∧ a.op = .DEC_VAL ∧ a.value = 1 ∧
                    b.op = .LOOP_END ∧ x.value = b.value
                · rw [if_pos hc] at hzc hz2
                  have hpre4 : ∀ z, pre4.getLast? = some z → z.op ≠ .SET_ZERO := by
                    intro z hzl
                    have hne : pre4 ≠ [] := by
                      intro hnil
                      rw [hnil] at hzl
                      cases hzl
                    refine hpre2 z ?_
                    rw [getLast?_cons_of_ne_nil x (List.cons_ne_nil _ _),
                      getLast?_cons_of_ne_nil a (List.cons_ne_nil _ _),
                      getLast?_cons_of_ne_nil b hne]
                    exact hzl
                  rw [optimize_cons_zl hv hp hzc, optimize_cons_zl hv hp hz2,
                    ih pre4 (by simp at hlen2; omega) hpre4]
                  simp
                · rw [if_neg hc] at hzc hz2
                  by_cases hs : x.op = .SET_ZERO
                  · rw [optimize_cons_sz hv hp hzc hs (by simp),
                      optimize_cons_sz hv hp hz2 hs (List.cons_ne_nil _ _),
                      gatherSZ_append]
                    by_cases h2 : (gatherSZ (a :: b :: pre4)).2 = []
                    · exfalso
                      have hall2 := gatherSZ_consumed_all h2
                      have hlast := List.getLast_mem (List.cons_ne_nil a (b :: pre4))
                      have hlop := hall2 _ hlast
                      have hlsome := List.getLast?_eq_getLast_of_ne_nil
                        (List.cons_ne_nil a (b :: pre4))
                      refine hpre2 ((a :: b :: pre4).getLast (List.cons_ne_nil _ _))
                        ?_ hlop
                      rw [← hplast]
                      exact hlsome
                    · rw [if_neg h2]
                      simp only
                      have hsfx : (gatherSZ (a :: b :: pre4)).2.getLast? =
                          (a :: b :: pre4).getLast? :=
                        getLast?_suffix_eq (gatherSZ_snd_suffix _) h2
                      have hpre3 : ∀ z, (gatherSZ (a :: b :: pre4)).2.getLast? = some z →
                          z.op ≠ .SET_ZERO := by
                        intro z hzl
                        refine hpre2 z ?_
                        rw [← hplast, ← hsfx]
                        exact hzl
                      rw [ih _ ((gatherSZ_snd_length (a :: b :: pre4)).trans hlen2) hpre3,
                        List.append_assoc]
                  · rw [optimize_cons_default hv hp hzc (by simp [hs]),
                      optimize_cons_default hv hp hz2 (by simp [hs]),
                      ih (a :: b :: pre4) hlen2 (by rw [hplast]; exact hpre2)]
                    simp
    exact main pre.length pre le_rfl hpre

/-! Execution semantics of the recognized idioms. -/

/-- Executing the compiled zero-loop `[LoopStart, DecVal 1, LoopEnd]` from
any starting cell value below 256 terminates with that cell zeroed and no
other change to tape, pointer, input or output. -/
theorem run_zeroloop (v : Int) (tape : Nat → Nat) (ptr : Nat) (inp out : List Nat) :
    ∀ c : Nat, c < 256 →
    run [⟨.LOOP_START, v⟩, ⟨.DEC_VAL, 1⟩, ⟨.LOOP_END, v⟩]
        (jumps [⟨.LOOP_START, v⟩, ⟨.DEC_VAL, 1⟩, ⟨.LOOP_END, v⟩])
        (3 * c + 1) ⟨upd tape ptr c, ptr, 0, inp, out⟩ =
      ⟨upd tape ptr 0, ptr, 3, inp, out⟩ := by
  intro c
  induction c with
  | zero =>
    intro _
    show run _ _ 1 _ = _
    simp [run, step, jumps, jumpsAux, upd_same, upd]
  | succ c ih =>
    intro hc
    have hb : byteAdd (c + 1) (-1) = c := by
      simp [byteAdd]
      omega
    have h1 : step [⟨.LOOP_START, v⟩, ⟨.DEC_VAL, 1⟩, ⟨.LOOP_END, v⟩]
        (jumps [⟨.LOOP_START, v⟩, ⟨.DEC_VAL, 1⟩, ⟨.LOOP_END, v⟩])
        ⟨upd tape ptr (c + 1), ptr, 0, inp, out⟩ =
        ⟨upd tape ptr (c + 1), ptr, 1, inp, out⟩ := by
      rw [step]
      simp [upd_same]
    have h2 : step [⟨.LOOP_START, v⟩, ⟨.DEC_VAL, 1⟩, ⟨.LOOP_END, v⟩]
        (jumps [⟨.LOOP_START, v⟩, ⟨.DEC_VAL, 1⟩, ⟨.LOOP_END, v⟩])
        ⟨upd tape ptr (c + 1), ptr, 1, inp, out⟩ =
        ⟨upd tape ptr c, ptr, 2, inp, out⟩ := by
      rw [step]
      simp [upd_same, upd_upd, hb]
    have hfuel : 3 * (c + 1) + 1 = (3 * c + 1) + 1 + 1 + 1 := by ring
    rw [hfuel, run, if_pos (by simp), h1, run, if_pos (by simp), h2, run,
      if_pos (by simp)]
    by_cases hc0 : c = 0
    · subst hc0
      have h3 : step [⟨.LOOP_START, v⟩, ⟨.DEC_VAL, 1⟩, ⟨.LOOP_END, v⟩]
          (jumps [⟨.LOOP_START, v⟩, ⟨.DEC_VAL, 1⟩, ⟨.LOOP_END, v⟩])
          ⟨upd tape ptr 0, ptr, 2, inp, out⟩ =
          ⟨upd tape ptr 0, ptr, 3, inp, out⟩ := by
        rw [step]
        simp [upd_same]
      rw [h3]
      exact run_stuck _ _ _ (by simp) _
    · have h3 : step [⟨.LOOP_START, v⟩, ⟨.DEC_VAL, 1⟩, ⟨.LOOP_END, v⟩]
          (jumps [⟨.LOOP_START, v⟩, ⟨.DEC_VAL, 1⟩, ⟨.LOOP_END, v⟩])
          ⟨upd tape ptr c, ptr, 2, inp, out⟩ =
          ⟨upd tape ptr c, ptr, 0, inp, out⟩ := by
        rw [step]
        simp [upd_same, hc0]
        rfl
      rw [h3]
      exact ih (by omega)

/-- Executing a single SetZero zeroes the current cell and nothing else. -/
theorem run_setzero (v : Int) (tape : Nat → Nat) (ptr c : Nat) (inp out : List Nat) :
    run [⟨.SET_ZERO, v⟩] (jumps [⟨.SET_ZERO, v⟩]) 1 ⟨upd tape ptr c, ptr, 0, inp, out⟩ =
      ⟨upd tape ptr 0, ptr, 1, inp, out⟩ := by
  rw [run, if_pos (by simp), step]
  simp [upd_upd, run]

end BF

namespace BF

theorem wrap64_small {n : Nat} (h : n < wordSize) : wrap64 (n : Int) = n := by
  simp [wrap64, wordSize] at *
  omega

theorem wrap64_add_small {a b : Nat} (h : a + b < wordSize) :
    wrap64 ((a : Int) + (b : Int)) = a + b := by
  have : ((a : Int) + (b : Int)) = ((a + b : Nat) : Int) := by push_cast; ring
  rw [this]
  exact wrap64_small h

theorem clearCells_char (tape : Nat → Nat) (ptr : Nat) :
    ∀ k : Nat, ptr + k < wordSize → ∀ j : Nat,
    clearCells tape ptr k j = if ptr ≤ j ∧ j < ptr + k then 0 else tape j := by
  intro k
  induction k with
  | zero =>
    intro _ j
    rw [clearCells]
    rw [if_neg (by omega)]
  | succ k ih =>
    intro hb j
    rw [clearCells, wrap64_add_small (by omega), upd]
    by_cases hj : j = ptr + k
    · rw [if_pos hj, if_pos (by omega)]
    · rw [if_neg hj, ih (by omega) j]
      by_cases hr : ptr ≤ j ∧ j < ptr + k
      · rw [if_pos hr, if_pos (by omega)]
      · rw [if_neg hr, if_neg (by omega)]

theorem run_clearrange (tape : Nat → Nat) (ptr k : Nat) (inp out : List Nat)
    (hb : ptr + k < wordSize) :
    run [⟨.CLEAR_RANGE, (k : Int)⟩] (jumps [⟨.CLEAR_RANGE, (k : Int)⟩]) 1
        ⟨tape, ptr, 0, inp, out⟩ =
      ⟨clearCells tape ptr k, ptr + k, 1, inp, out⟩ := by
  rw [run, if_pos (by simp), step]
  simp [run, wrap64_add_small hb, Int.toNat_natCast]

theorem readN_nil : ∀ (n : Nat) (cur : Nat),
    readN n [] cur = (if n = 0 then cur else 255, []) := by
  intro n
  induction n with
  | zero => intro cur; rfl
  | succ n ih =>
    intro cur
    rw [readN, ih]
    by_cases h : n = 0
    · subst h; simp
    · simp [h]

theorem readN_short : ∀ (n : Nat) (inp : List Nat) (cur : Nat), inp.length < n →
    readN n inp cur = (255, []) := by
  intro n
  induction n with
  | zero => intro inp cur h; simp at h
  | succ n ih =>
    intro inp cur h
    cases inp with
    | nil =>
      rw [readN, readN_nil]
      by_cases h0 : n = 0 <;> simp [h0]
    | cons b rest =>
      rw [readN]
      exact ih rest (b % 256) (by simpa using h)

theorem readN_enough : ∀ (n : Nat) (inp : List Nat) (cur : Nat), 1 ≤ n →
    n ≤ inp.length →
    readN n inp cur = (inp.getD (n - 1) 0 % 256, inp.drop n) := by
  intro n
  induction n with
  | zero => intro inp cur h; omega
  | succ n ih =>
    intro inp cur _ hlen
    cases inp with
    | nil => simp at hlen
    | cons b rest =>
      rw [readN]
      by_cases h0 : n = 0
      · subst h0
        rw [readN]
        simp
      · obtain ⟨m, rfl⟩ : ∃ m, n = m + 1 := ⟨n - 1, by omega⟩
        rw [ih rest (b % 256) (by omega) (by simpa using hlen)]
        simp

theorem run_input_exhausted (n : Nat) (tape : Nat → Nat) (ptr : Nat)
    (inp out : List Nat) (h1 : 1 ≤ n) (h2 : inp.length < n) :
    run [⟨.INPUT, (n : Int)⟩] (jumps [⟨.INPUT, (n : Int)⟩]) 1 ⟨tape, ptr, 0, inp, out⟩ =
      ⟨upd tape ptr 255, ptr, 1, [], out⟩ := by
  rw [run, if_pos (by simp), step]
  simp [run, Int.toNat_natCast, readN_short n inp (tape ptr) h2]

theorem run_decptr (n : Nat) (inp : List Nat) (h1 : 1 ≤ n) (h2 : n ≤ wordSize) :
    run [⟨.DEC_PTR, (n : Int)⟩] (jumps [⟨.DEC_PTR, (n : Int)⟩]) 1 (initState inp) =
      ⟨fun _ => 0, wordSize - n, 1, inp, []⟩ := by
  have hw : wrap64 (-(n : Int)) = wordSize - n := by
    simp [wrap64, wordSize] at *
    omega
  rw [run, if_pos (by simp [initState]), step]
  simp [run, initState, hw]

end BF

namespace BF

theorem run_input_enough (n : Nat) (tape : Nat → Nat) (ptr : Nat)
    (inp out : List Nat) (h1 : 1 ≤ n) (h2 : n ≤ inp.length) :
    run [⟨.INPUT, (n : Int)⟩] (jumps [⟨.INPUT, (n : Int)⟩]) 1 ⟨tape, ptr, 0, inp, out⟩ =
      ⟨upd tape ptr (inp.getD (n - 1) 0 % 256), ptr, 1, inp.drop n, out⟩ := by
  rw [run, if_pos (by simp), step]
  simp [run, Int.toNat_natCast, readN_enough n inp (tape ptr) h1 h2]

theorem byteAdd_mod (c : Nat) (d : Int) :
    byteAdd c d = (((c : Int) + d % 256) % 256).toNat := by
  simp [byteAdd, Int.add_emod, Int.emod_emod_of_dvd]

theorem run_incval (tape : Nat → Nat) (ptr : Nat) (inp out : List Nat) (d : Int) :
    run [⟨.INC_VAL, d⟩] (jumps [⟨.INC_VAL, d⟩]) 1 ⟨tape, ptr, 0, inp, out⟩ =
      ⟨upd tape ptr (byteAdd (tape ptr) d), ptr, 1, inp, out⟩ := by
  rw [run, if_pos (by simp), step]
  simp [run]

theorem step_core_eq (prog : List Instruction) (js : Nat → Nat)
    (h : noInput prog) (s1 s2 : State) (hc : core s1 = core s2) :
    core (step prog js s1) = core (step prog js s2) := by
  obtain ⟨t1, p1, c1, i1, o1⟩ := s1
  obtain ⟨t2, p2, c2, i2, o2⟩ := s2
  simp [core] at hc
  obtain ⟨ht, hp, hcc, ho⟩ := hc
  subst ht hp hcc ho
  cases hget : prog.get? c1 with
  | none =>
    rw [step, step, hget]
    simp [core]
  | some instr =>
    have hmem : instr ∈ prog := List.get?_mem hget
    have hni : instr.op ≠ .INPUT := h instr hmem
    rw [step, step, hget]
    cases hop : instr.op <;> simp_all [core] <;>
      (by_cases h0 : t1 p1 = 0 <;> simp [h0])

theorem run_core_eq (prog : List Instruction) (js : Nat → Nat)
    (h : noInput prog) : ∀ (f : Nat) (s1 s2 : State), core s1 = core s2 →
    core (run prog js f s1) = core (run prog js f s2) := by
  intro f
  induction f with
  | zero => intro s1 s2 hc; exact hc
  | succ f ih =>
    intro s1 s2 hc
    have hpc : s1.pc = s2.pc := congrArg (fun q => q.2.2.1) hc
    rw [run, run, hpc]
    by_cases hlt : s2.pc < prog.length
    · rw [if_pos hlt, if_pos hlt]
      exact ih _ _ (step_core_eq prog js h s1 s2 hc)
    · rw [if_neg hlt, if_neg hlt]
      exact hc

end BF

namespace BF

/-! Properties of the run-length lookahead and the compiler scan. -/

theorem countRun_eq (c : Char) : ∀ (l : List Char),
    l = List.replicate (countRun c l).1 c ++ (countRun c l).2 := by
  intro l
  induction l with
  | nil => rfl
  | cons x r ih =>
    by_cases h : x = c
    · subst h
      rw [countRun, if_pos rfl]
      simp only [List.replicate_succ, List.cons_append]
      exact congrArg _ ih
    · rw [countRun, if_neg h]
      simp

theorem countRun_snd_length (c : Char) : ∀ (l : List Char),
    (countRun c l).2.length ≤ l.length := by
  intro l
  induction l with
  | nil => simp [countRun]
  | cons x r ih =>
    by_cases h : x = c
    · subst h
      rw [countRun, if_pos rfl]
      exact ih.trans (Nat.le_succ _)
    · rw [countRun, if_neg h]

theorem countRun_replicate (c : Char) (n : Nat) :
    countRun c (List.replicate n c) = (n, []) := by
  induction n with
  | zero => rfl
  | succ n ih => rw [List.replicate_succ, countRun, if_pos rfl, ih]

theorem setZeroCapture_some : ∀ {rest r2 : List Char},
    setZeroCapture rest = some r2 → rest = '-' :: ']' :: r2 := by
  intro rest r2 h
  match rest with
  | [] => cases h
  | [a] => cases h
  | a :: b :: r =>
    rw [setZeroCapture] at h
    by_cases hc : a = '-' ∧ b = ']'
    · rw [if_pos hc] at h
      cases h
      rw [hc.1, hc.2]
    · rw [if_neg hc] at h
      cases h

theorem compileF_gt (f : Nat) (rest : List Char) (i : Nat) (acc : List Instruction)
    (stack : List Nat) : compileF (f + 1) ('>' :: rest) i acc stack =
      compileF f (countRun '>' rest).2 (i + (countRun '>' rest).1 + 1)
        (acc ++ [⟨.INC_PTR, ((countRun '>' rest).1 : Int) + 1⟩]) stack := rfl

theorem compileF_lt (f : Nat) (rest : List Char) (i : Nat) (acc : List Instruction)
    (stack : List Nat) : compileF (f + 1) ('<' :: rest) i acc stack =
      compileF f (countRun '<' rest).2 (i + (countRun '<' rest).1 + 1)
        (acc ++ [⟨.DEC_PTR, ((countRun '<' rest).1 : Int) + 1⟩]) stack := rfl

theorem compileF_plus (f : Nat) (rest : List Char) (i : Nat) (acc : List Instruction)
    (stack : List Nat) : compileF (f + 1) ('+' :: rest) i acc stack =
      compileF f (countRun '+' rest).2 (i + (countRun '+' rest).1 + 1)
        (acc ++ [⟨.INC_VAL, ((countRun '+' rest).1 : Int) + 1⟩]) stack := rfl

theorem compileF_minus (f : Nat) (rest : List Char) (i : Nat) (acc : List Instruction)
    (stack : List Nat) : compileF (f + 1) ('-' :: rest) i acc stack =
      compileF f (countRun '-' rest).2 (i + (countRun '-' rest).1 + 1)
        (acc ++ [⟨.DEC_VAL, ((countRun '-' rest).1 : Int) + 1⟩]) stack := rfl

theorem compileF_dot (f : Nat) (rest : List Char) (i : Nat) (acc : List Instruction)
    (stack : List Nat) : compileF (f + 1) ('.' :: rest) i acc stack =
      compileF f (countRun '.' rest).2 (i + (countRun '.' rest).1 + 1)
        (acc ++ [⟨.OUTPUT, ((countRun '.' rest).1 : Int) + 1⟩]) stack := rfl

theorem compileF_comma (f : Nat) (rest : List Char) (i : Nat) (acc : List Instruction)
    (stack : List Nat) : compileF (f + 1) (',' :: rest) i acc stack =
      compileF f (countRun ',' rest).2 (i + (countRun ',' rest).1 + 1)
        (acc ++ [⟨.INPUT, ((countRun ',' rest).1 : Int) + 1⟩]) stack := rfl

theorem compileF_open (f : Nat) (rest : List Char) (i : Nat) (acc : List Instruction)
    (stack : List Nat) : compileF (f + 1) ('[' :: rest) i acc stack =
      match setZeroCapture rest with
      | some r2 => compileF f r2 (i + 3) (acc ++ [⟨.SET_ZERO, 1⟩]) stack
      | none => compileF f rest (i + 1) (acc ++ [⟨.LOOP_START, 0⟩])
          (acc.length :: stack) := rfl

theorem compileF_close (f : Nat) (rest : List Char) (i : Nat) (acc : List Instruction)
    (stack : List Nat) : compileF (f + 1) (']' :: rest) i acc stack =
      match stack with
      | [] => .error (.unmatchedClose i)
      | _ :: s => compileF f rest (i + 1) (acc ++ [⟨.LOOP_END, 0⟩]) s := rfl

theorem compileF_other (f : Nat) (c : Char) (rest : List Char) (i : Nat)
    (acc : List Instruction) (stack : List Nat)
    (h1 : c ≠ '>') (h2 : c ≠ '<') (h3 : c ≠ '+') (h4 : c ≠ '-')
    (h5 : c ≠ '.') (h6 : c ≠ ',') (h7 : c ≠ '[') (h8 : c ≠ ']') :
    compileF (f + 1) (c :: rest) i acc stack = compileF f rest (i + 1) acc stack := by
  simp only [compileF]
  rw [if_neg h1, if_neg h2, if_neg h3, if_neg h4, if_neg h5, if_neg h6,
    if_neg h7, if_neg h8]

theorem balAux_other {c : Char} (h1 : c ≠ '[') (h2 : c ≠ ']') (r : List Char) (n : Nat) :
    balAux (c :: r) n = balAux r n := by
  simp only [balAux]
  rw [if_neg h1, if_neg h2]

theorem balAux_replicate {c : Char} (h1 : c ≠ '[') (h2 : c ≠ ']') :
    ∀ (k : Nat) (r : List Char) (n : Nat),
    balAux (List.replicate k c ++ r) n = balAux r n := by
  intro k
  induction k with
  | zero => intro r n; rfl
  | succ k ih =>
    intro r n
    rw [List.replicate_succ, List.cons_append, balAux_other h1 h2, ih]

/-- The compiler succeeds exactly on bracket-balanced sources: the
matching-stack discipline of the scan decides the balance condition. -/
theorem compileF_ok_iff : ∀ (f : Nat) (src : List Char), src.length ≤ f →
    ∀ (i : Nat) (acc : List Instruction) (stack : List Nat),
    compOk (compileF f src i acc stack) = balAux src stack.length := by
  intro f
  induction f with
  | zero =>
    intro src hf i acc stack
    have hsrc : src = [] := List.length_eq_zero.mp (Nat.le_zero.mp hf)
    subst hsrc
    cases stack <;> simp [compileF, balAux, compOk]
  | succ f ih =>
    intro src hf i acc stack
    cases src with
    | nil => cases stack <;> simp [compileF, balAux, compOk]
    | cons c rest =>
      have hr : rest.length ≤ f := by simpa using hf
      have hcount : ∀ c2 : Char, (countRun c2 rest).2.length ≤ f :=
        fun c2 => (countRun_snd_length c2 rest).trans hr
      by_cases e1 : c = '>'
      · subst e1
        rw [compileF_gt, ih _ (hcount _), balAux_other (by decide) (by decide),
          countRun_eq '>' rest, balAux_replicate (by decide) (by decide),
          ← countRun_eq '>' rest]
      · by_cases e2 : c = '<'
        · subst e2
          rw [compileF_lt, ih _ (hcount _), balAux_other (by decide) (by decide),
            countRun_eq '<' rest, balAux_replicate (by decide) (by decide),
            ← countRun_eq '<' rest]
        · by_cases e3 : c = '+'
          · subst e3
            rw [compileF_plus, ih _ (hcount _), balAux_other (by decide) (by decide),
              countRun_eq '+' rest, balAux_replicate (by decide) (by decide),
              ← countRun_eq '+' rest]
          · by_cases e4 : c = '-'
            · subst e4
              rw [compileF_minus, ih _ (hcount _),
                balAux_other (by decide) (by decide),
                countRun_eq '-' rest, balAux_replicate (by decide) (by decide),
                ← countRun_eq '-' rest]
            · by_cases e5 : c = '.'
              · subst e5
                rw [compileF_dot, ih _ (hcount _),
                  balAux_other (by decide) (by decide),
                  countRun_eq '.' rest, balAux_replicate (by decide) (by decide),
                  ← countRun_eq '.' rest]
              · by_cases e6 : c = ','
                · subst e6
                  rw [compileF_comma, ih _ (hcount _),
                    balAux_other (by decide) (by decide),
                    countRun_eq ',' rest, balAux_replicate (by decide) (by decide),
                    ← countRun_eq ',' rest]
                · by_cases e7 : c = '['
                  · subst e7
                    rw [compileF_open]
                    cases hcap : setZeroCapture rest with
                    | some r2 =>
                      have hrest := setZeroCapture_some hcap
                      subst hrest
                      have hr2 : r2.length ≤ f := by
                        simp at hr
                        omega
                      simp only
                      rw [ih _ hr2]
                      rfl
                    | none =>
                      simp only
                      rw [ih _ hr]
                      rfl
                  · by_cases e8 : c = ']'
                    · subst e8
                      rw [compileF_close]
                      cases stack with
                      | nil => simp [compOk, balAux]
                      | cons t s =>
                        simp only
                        rw [ih _ hr]
                        rfl
                    · rw [compileF_other f c rest i acc stack e1 e2 e3 e4 e5 e6 e7 e8,
                        ih _ hr, balAux_other e7 e8]

end BF

namespace BF

theorem getIdx1 (c : Char) (r : List Char) (i p : Nat)
    (h1 : i + 1 ≤ p) (h2 : r[p - (i + 1)]? = some ']') :
    (c :: r)[p - i]? = some ']' := by
  rw [show p - i = (p - (i + 1)) + 1 by omega, List.getElem?_cons_succ]
  exact h2

theorem getIdx3 (r2 : List Char) (i p : Nat)
    (h1 : i + 3 ≤ p) (h2 : r2[p - (i + 3)]? = some ']') :
    ('[' :: '-' :: ']' :: r2)[p - i]? = some ']' := by
  rw [show p - i = ((p - (i + 3)) + 1 + 1) + 1 by omega]
  simp only [List.getElem?_cons_succ]
  exact h2

theorem getIdxRun (c : Char) (k : Nat) (r : List Char) (i p : Nat)
    (h1 : i + k + 1 ≤ p) (h2 : r[p - (i + k + 1)]? = some ']') :
    (c :: (List.replicate k c ++ r))[p - i]? = some ']' := by
  rw [show p - i = (k + (p - (i + k + 1))) + 1 by omega,
    List.getElem?_cons_succ, List.getElem?_append_right (by simp),
    List.length_replicate,
    show k + (p - (i + k + 1)) - k = p - (i + k + 1) by omega]
  exact h2

/-- When the scan fails on an unmatched close bracket, the reported
position is the source index of that close bracket. -/
theorem compileF_close_pos : ∀ (f : Nat) (src : List Char), src.length ≤ f →
    ∀ (i : Nat) (acc : List Instruction) (stack : List Nat) (p : Nat),
    compileF f src i acc stack = .error (.unmatchedClose p) →
    i ≤ p ∧ src[p - i]? = some ']' := by
  intro f
  induction f with
  | zero =>
    intro src hf i acc stack p herr
    have hsrc : src = [] := List.length_eq_zero.mp (Nat.le_zero.mp hf)
    subst hsrc
    cases stack <;> simp [compileF] at herr
  | succ f ih =>
    intro src hf i acc stack p herr
    cases src with
    | nil => cases stack <;> simp [compileF] at herr
    | cons c rest =>
      have hr : rest.length ≤ f := by simpa using hf
      by_cases e1 : c = '>'
      · subst e1
        rw [compileF_gt] at herr
        obtain ⟨k, r, hkr⟩ : ∃ k r, countRun '>' rest = (k, r) := ⟨_, _, rfl⟩
        rw [hkr] at herr
        have hrlen : r.length ≤ f := by
          have h0 := (countRun_snd_length '>' rest).trans hr
          rw [hkr] at h0
          exact h0
        obtain ⟨hip, hget⟩ := ih _ hrlen _ _ _ _ herr
        have hrest : rest = List.replicate k '>' ++ r := by
          have h0 := countRun_eq '>' rest
          rw [hkr] at h0
          exact h0
        rw [hrest]
        exact ⟨by omega, getIdxRun '>' k r i p (by omega) hget⟩
      · by_cases e2 : c = '<'
        · subst e2
          rw [compileF_lt] at herr
          obtain ⟨k, r, hkr⟩ : ∃ k r, countRun '<' rest = (k, r) := ⟨_, _, rfl⟩
          rw [hkr] at herr
          have hrlen : r.length ≤ f := by
            have h0 := (countRun_snd_length '<' rest).trans hr
            rw [hkr] at h0
            exact h0
          obtain ⟨hip, hget⟩ := ih _ hrlen _ _ _ _ herr
          have hrest : rest = List.replicate k '<' ++ r := by
            have h0 := countRun_eq '<' rest
            rw [hkr] at h0
            exact h0
          rw [hrest]
          exact ⟨by omega, getIdxRun '<' k r i p (by omega) hget⟩
        · by_cases e3 : c = '+'
          · subst e3
            rw [compileF_plus] at herr
            obtain ⟨k, r, hkr⟩ : ∃ k r, countRun '+' rest = (k, r) := ⟨_, _, rfl⟩
            rw [hkr] at herr
            have hrlen : r.length ≤ f := by
              have h0 := (countRun_snd_length '+' rest).trans hr
              rw [hkr] at h0
              exact h0
            obtain ⟨hip, hget⟩ := ih _ hrlen _ _ _ _ herr
            have hrest : rest = List.replicate k '+' ++ r := by
              have h0 := countRun_eq '+' rest
              rw [hkr] at h0
              exact h0
            rw [hrest]
            exact ⟨by omega, getIdxRun '+' k r i p (by omega) hget⟩
          · by_cases e4 : c = '-'
            · subst e4
              rw [compileF_minus] at herr
              obtain ⟨k, r, hkr⟩ : ∃ k r, countRun '-' rest = (k, r) := ⟨_, _, rfl⟩
              rw [hkr] at herr
              have hrlen : r.length ≤ f := by
                have h0 := (countRun_snd_length '-' rest).trans hr
                rw [hkr] at h0
                exact h0
              obtain ⟨hip, hget⟩ := ih _ hrlen _ _ _ _ herr
              have hrest : rest = List.replicate k '-' ++ r := by
                have h0 := countRun_eq '-' rest
                rw [hkr] at h0
                exact h0
              rw [hrest]
              exact ⟨by omega, getIdxRun '-' k r i p (by omega) hget⟩
            · by_cases e5 : c = '.'
              · subst e5
                rw [compileF_dot] at herr
                obtain ⟨k, r, hkr⟩ : ∃ k r, countRun '.' rest = (k, r) := ⟨_, _, rfl⟩
                rw [hkr] at herr
                have hrlen : r.length ≤ f := by
                  have h0 := (countRun_snd_length '.' rest).trans hr
                  rw [hkr] at h0
                  exact h0
                obtain ⟨hip, hget⟩ := ih _ hrlen _ _ _ _ herr
                have hrest : rest = List.replicate k '.' ++ r := by
                  have h0 := countRun_eq '.' rest
                  rw [hkr] at h0
                  exact h0
                rw [hrest]
                exact ⟨by omega, getIdxRun '.' k r i p (by omega) hget⟩
              · by_cases e6 : c = ','
                · subst e6
                  rw [compileF_comma] at herr
                  obtain ⟨k, r, hkr⟩ : ∃ k r, countRun ',' rest = (k, r) := ⟨_, _, rfl⟩
                  rw [hkr] at herr
                  have hrlen : r.length ≤ f := by
                    have h0 := (countRun_snd_length ',' rest).trans hr
                    rw [hkr] at h0
                    exact h0
                  obtain ⟨hip, hget⟩ := ih _ hrlen _ _ _ _ herr
                  have hrest : rest = List.replicate k ',' ++ r := by
                    have h0 := countRun_eq ',' rest
                    rw [hkr] at h0
                    exact h0
                  rw [hrest]
                  exact ⟨by omega, getIdxRun ',' k r i p (by omega) hget⟩
                · by_cases e7 : c = '['
                  · subst e7
                    rw [compileF_open] at herr
                    cases hcap : setZeroCapture rest with
                    | some r2 =>
                      rw [hcap] at herr
                      simp only at herr
                      have hrest := setZeroCapture_some hcap
                      have hr2 : r2.length ≤ f := by
                        rw [hrest] at hr
                        simp at hr
                        omega
                      obtain ⟨hip, hget⟩ := ih _ hr2 _ _ _ _ herr
                      rw [hrest]
                      exact ⟨by omega, getIdx3 r2 i p (by omega) hget⟩
                    | none =>
                      rw [hcap] at herr
                      simp only at herr
                      obtain ⟨hip, hget⟩ := ih _ hr _ _ _ _ herr
                      exact ⟨by omega, getIdx1 '[' rest i p (by omega) hget⟩
                  · by_cases e8 : c = ']'
                    · subst e8
                      rw [compileF_close] at herr
                      cases stack with
                      | nil =>
                        simp only at herr
                        have hp : p = i := by
                          cases herr
                          rfl
                        subst hp
                        simp
                      | cons t s =>
                        simp only at herr
                        obtain ⟨hip, hget⟩ := ih _ hr _ _ _ _ herr
                        exact ⟨by omega, getIdx1 ']' rest i p (by omega) hget⟩
                    · rw [compileF_other f c rest i acc stack e1 e2 e3 e4 e5 e6 e7 e8]
                        at herr
                      obtain ⟨hip, hget⟩ := ih _ hr _ _ _ _ herr
                      exact ⟨by omega, getIdx1 c rest i p (by omega) hget⟩

/-- Compiling a pure run of N plus characters yields exactly one
instruction, an AddValue whose operand is the unreduced count N. -/
theorem compile_replicate_plus (N : Nat) (h : 1 ≤ N) :
    compile (List.replicate N '+') = .ok [⟨.INC_VAL, (N : Int)⟩] := by
  obtain ⟨M, rfl⟩ : ∃ M, N = M + 1 := ⟨N - 1, by omega⟩
  rw [compile, List.length_replicate, List.replicate_succ, compileF_plus,
    countRun_replicate]
  simp only [compileF]
  norm_num

end BF

namespace BF

theorem accPres {acc : List Instruction} {ins : Instruction}
    (h : ∀ x ∈ acc, (x.op = .LOOP_START ∨ x.op = .LOOP_END) → x.value = 0)
    (hins : (ins.op = .LOOP_START ∨ ins.op = .LOOP_END) → ins.value = 0) :
    ∀ x ∈ acc ++ [ins], (x.op = .LOOP_START ∨ x.op = .LOOP_END) → x.value = 0 := by
  intro x hx
  rcases List.mem_append.mp hx with h1 | h2
  · exact h x h1
  · have : x = ins := by simpa using h2
    subst this
    exact hins

/-- Every jump instruction the compiler emits carries the operand 0. -/
theorem compileF_jumps_zero : ∀ (f : Nat) (src : List Char) (i : Nat)
    (acc : List Instruction) (stack : List Nat) (bc : List Instruction),
    (∀ x ∈ acc, (x.op = .LOOP_START ∨ x.op = .LOOP_END) → x.value = 0) →
    compileF f src i acc stack = .ok bc →
    ∀ x ∈ bc, (x.op = .LOOP_START ∨ x.op = .LOOP_END) → x.value = 0 := by
  intro f
  induction f with
  | zero =>
    intro src i acc stack bc h hok
    cases src with
    | nil =>
      cases stack with
      | nil =>
        cases hok
        exact h
      | cons t s => cases hok
    | cons c rest =>
      cases hok
      exact h
  | succ f ih =>
    intro src i acc stack bc h hok
    cases src with
    | nil =>
      cases stack with
      | nil =>
        cases hok
        exact h
      | cons t s => cases hok
    | cons c rest =>
      by_cases e1 : c = '>'
      · subst e1
        rw [compileF_gt] at hok
        exact ih _ _ _ _ _ (accPres h (by simp)) hok
      · by_cases e2 : c = '<'
        · subst e2
          rw [compileF_lt] at hok
          exact ih _ _ _ _ _ (accPres h (by simp)) hok
        · by_cases e3 : c = '+'
          · subst e3
            rw [compileF_plus] at hok
            exact ih _ _ _ _ _ (accPres h (by simp)) hok
          · by_cases e4 : c = '-'
            · subst e4
              rw [compileF_minus] at hok
              exact ih _ _ _ _ _ (accPres h (by simp)) hok
            · by_cases e5 : c = '.'
              · subst e5
                rw [compileF_dot] at hok
                exact ih _ _ _ _ _ (accPres h (by simp)) hok
              · by_cases e6 : c = ','
                · subst e6
                  rw [compileF_comma] at hok
                  exact ih _ _ _ _ _ (accPres h (by simp)) hok
                · by_cases e7 : c = '['
                  · subst e7
                    rw [compileF_open] at hok
                    cases hcap : setZeroCapture rest with
                    | some r2 =>
                      rw [hcap] at hok
                      simp only at hok
                      exact ih _ _ _ _ _ (accPres h (by simp)) hok
                    | none =>
                      rw [hcap] at hok
                      simp only at hok
                      exact ih _ _ _ _ _ (accPres h (by simp)) hok
                  · by_cases e8 : c = ']'
                    · subst e8
                      rw [compileF_close] at hok
                      cases stack with
                      | nil => cases hok
                      | cons t s =>
                        simp only at hok
                        exact ih _ _ _ _ _ (accPres h (by simp)) hok
                    · rw [compileF_other f c rest i acc stack e1 e2 e3 e4 e5 e6 e7 e8]
                        at hok
                      exact ih _ _ _ _ _ h hok

theorem emitVal_ops {m : Int} : ∀ x ∈ emitVal m, x.op = .INC_VAL ∨ x.op = .DEC_VAL := by
  intro x hx
  unfold emitVal at hx
  split at hx
  · have : x = ⟨.INC_VAL, m⟩ := by simpa using hx
    subst this
    left
    rfl
  · split at hx
    · have : x = ⟨.DEC_VAL, -m⟩ := by simpa using hx
      subst this
      right
      rfl
    · cases hx

theorem emitPtr_ops {m : Int} : ∀ x ∈ emitPtr m, x.op = .INC_PTR ∨ x.op = .DEC_PTR := by
  intro x hx
  unfold emitPtr at hx
  split at hx
  · have : x = ⟨.INC_PTR, m⟩ := by simpa using hx
    subst this
    left
    rfl
  · split at hx
    · have : x = ⟨.DEC_PTR, -m⟩ := by simpa using hx
      subst this
      right
      rfl
    · cases hx

/-- One optimizer pass preserves the invariant that every jump
instruction carries the operand 0. -/
theorem optimize_jumps_zero : ∀ (n : Nat) (bc : List Instruction), bc.length ≤ n →
    (∀ x ∈ bc, (x.op = .LOOP_START ∨ x.op = .LOOP_END) → x.value = 0) →
    ∀ x ∈ optimize bc, (x.op = .LOOP_START ∨ x.op = .LOOP_END) → x.value = 0 := by
  intro n
  induction n with
  | zero =>
    intro bc hn h
    have : bc = [] := List.length_eq_zero.mp (Nat.le_zero.mp hn)
    subst this
    simpa [optimize_nil] using h
  | succ n ih =>
    intro bc hn h
    cases bc with
    | nil => simpa [optimize_nil] using h
    | cons y rest =>
      have hrest : rest.length ≤ n := by simpa using hn
      have hmem : ∀ x ∈ rest, (x.op = .LOOP_START ∨ x.op = .LOOP_END) → x.value = 0 :=
        fun x hx => h x (List.mem_cons_of_mem y hx)
      cases hv : valDelta y with
      | some d =>
        rw [optimize_cons_val hv]
        intro x hx hop
        rcases List.mem_append.mp hx with h1 | h2
        · rcases emitVal_ops x h1 with h3 | h3 <;> rcases hop with h4 | h4 <;>
            (rw [h3] at h4; cases h4)
        · have hsub := (gatherVal_snd_suffix rest d).subset
          exact ih _ ((gatherVal_snd_length rest d).trans hrest)
            (fun z hz => hmem z (hsub hz)) x h2 hop
      | none =>
        cases hp : ptrDelta y with
        | some d =>
          rw [optimize_cons_ptr hv hp]
          intro x hx hop
          rcases List.mem_append.mp hx with h1 | h2
          · rcases emitPtr_ops x h1 with h3 | h3 <;> rcases hop with h4 | h4 <;>
              (rw [h3] at h4; cases h4)
          · have hsub := (gatherPtr_snd_suffix rest d).subset
            exact ih _ ((gatherPtr_snd_length rest d).trans hrest)
              (fun z hz => hmem z (hsub hz)) x h2 hop
        | none =>
          cases hz : zlTail y rest with
          | some r2 =>
            rw [optimize_cons_zl hv hp hz]
            intro x hx hop
            rcases List.mem_cons.mp hx with h1 | h2
            · subst h1
              rfl
            · have hzl := zlTail_length hz
              have hsfx : r2 <:+ rest := ⟨rest.take 2, hzl.1.symm⟩
              exact ih _ (by omega) (fun z hzm => hmem z (hsfx.subset hzm)) x h2 hop
          | none =>
            by_cases hs : y.op = .SET_ZERO ∧ rest ≠ []
            · rw [optimize_cons_sz hv hp hz hs.1 hs.2]
              intro x hx hop
              rcases List.mem_append.mp hx with h1 | h2
              · exfalso
                revert h1
                split
                · intro h1
                  have hxx : x = ⟨.CLEAR_RANGE, ((gatherSZ rest).1 : Int) + 1⟩ := by
                    simpa using h1
                  rw [hxx] at hop
                  simp at hop
                · intro h1
                  have hxx : x = y := by simpa using h1
                  rw [hxx, hs.1] at hop
                  simp at hop
              · have hsub := (gatherSZ_snd_suffix rest).subset
                exact ih _ ((gatherSZ_snd_length rest).trans hrest)
                  (fun z hzm => hmem z (hsub hzm)) x h2 hop
            · rw [optimize_cons_default hv hp hz hs]
              intro x hx hop
              rcases List.mem_cons.mp hx with h1 | h2
              · subst h1
                exact h x (List.mem_cons_self _ _) hop
              · exact ih _ hrest hmem x h2 hop

/-- The iterated optimizer preserves the zero-operand invariant on jumps. -/
theorem optIter_jumps_zero : ∀ (k : Nat) (bc : List Instruction),
    (∀ x ∈ bc, (x.op = .LOOP_START ∨ x.op = .LOOP_END) → x.value = 0) →
    ∀ x ∈ optIter k bc, (x.op = .LOOP_START ∨ x.op = .LOOP_END) → x.value = 0 := by
  intro k
  induction k with
  | zero => intro bc h; exact h
  | succ k ih =>
    intro bc h
    rw [optIter]
    exact ih _ (optimize_jumps_zero bc.length bc le_rfl h)

end BF

set_option maxRecDepth 8000

namespace BF

theorem mainModel_input_irrel (fuel : Nat) (src : List Char)
    (h : pipelineNoInput (compile src) = true) (i1 i2 : List Nat) :
    mainModel fuel src i1 = mainModel fuel src i2 := by
  rw [mainModel, mainModel]
  rcases hbc : compile src with e | bc
  · rfl
  · simp only
    rw [hbc] at h
    simp only [pipelineNoInput] at h
    have hni : noInput (optIter 7 bc) := by
      intro x hx
      have h2 := List.all_eq_true.mp h x hx
      simpa using h2
    have hcore := run_core_eq (optIter 7 bc) (jumps (optIter 7 bc)) hni fuel
      (initState i1) (initState i2) rfl
    have hout := congrArg (fun q => q.2.2.2) hcore
    simp only [core] at hout
    rw [hout]

end BF

/-- Claim C1. The optimizer transparency property fails on the code: for
the valid source `+++>[-][-]<.` the raw instruction stream outputs the
byte 3, while the stream produced by the pipeline's seven optimizer
passes outputs the byte 0 — the SetZero-run-to-ClearRange fusion fires on
the two adjacent SetZero instructions of `[-][-]`, zeroes the two cells
at the pointer and advances the pointer, none of which the raw stream
does. Input is irrelevant (neither stream reads it). -/
theorem BF.C1_clear_range_breaks_transparency :
    BF.compile ("+++>[-][-]<.".toList) =
      .ok [⟨.INC_VAL, 3⟩, ⟨.INC_PTR, 1⟩, ⟨.SET_ZERO, 1⟩, ⟨.SET_ZERO, 1⟩,
        ⟨.DEC_PTR, 1⟩, ⟨.OUTPUT, 1⟩] ∧
    (BF.run [⟨.INC_VAL, 3⟩, ⟨.INC_PTR, 1⟩, ⟨.SET_ZERO, 1⟩, ⟨.SET_ZERO, 1⟩,
        ⟨.DEC_PTR, 1⟩, ⟨.OUTPUT, 1⟩]
      (BF.jumps [⟨.INC_VAL, 3⟩, ⟨.INC_PTR, 1⟩, ⟨.SET_ZERO, 1⟩, ⟨.SET_ZERO, 1⟩,
        ⟨.DEC_PTR, 1⟩, ⟨.OUTPUT, 1⟩]) 32 (BF.initState [])).output = [3] ∧
    BF.mainModel 32 ("+++>[-][-]<.".toList) [] = (0, some [0]) ∧
    (3 : Nat) ≠ 0 := by
  decide

/-- Claim C2, counterexample. The range-clear fusion is applied to an
adjacent SetZero pair even though the second SetZero of the pair is
preceded by a SetZero — not by a pointer advance of one cell — so the
stated precondition does not restrict the rule. -/
theorem BF.C2_range_clear_counterexample :
    BF.optimize [⟨.SET_ZERO, 1⟩, ⟨.SET_ZERO, 1⟩] = [⟨.CLEAR_RANGE, 2⟩] ∧
    (⟨.SET_ZERO, 1⟩ : BF.Instruction).op ≠ .INC_PTR := by
  decide

/-- Claim C2, amended. One optimizer pass replaces every maximal run of
`k ≥ 2` adjacent SetZero instructions (maximality: the neighbours on both
sides, when present, are not SetZero) by a single ClearRange whose count
is the run length, with no precondition on what precedes each SetZero;
executing ClearRange k zeroes the k cells from the pointer on and
advances the pointer by k. -/
theorem BF.C2_range_clear_amended (pre zrun post : List BF.Instruction) (k : Nat)
    (tape : Nat → Nat) (ptr : Nat) (inp out : List Nat) (j : Nat)
    (hall : ∀ x ∈ zrun, x.op = BF.Bytecode.SET_ZERO) (hk : 2 ≤ zrun.length)
    (hlen : zrun.length = k)
    (hpre : ∀ z, pre.getLast? = some z → z.op ≠ BF.Bytecode.SET_ZERO)
    (hpost : ∀ z, post.head? = some z → z.op ≠ BF.Bytecode.SET_ZERO)
    (hb : ptr + k < BF.wordSize) :
    BF.optimize (pre ++ zrun ++ post) =
      BF.optimize pre ++ ⟨.CLEAR_RANGE, (k : Int)⟩ :: BF.optimize post ∧
    BF.run [⟨.CLEAR_RANGE, (k : Int)⟩] (BF.jumps [⟨.CLEAR_RANGE, (k : Int)⟩]) 1
        ⟨tape, ptr, 0, inp, out⟩ =
      ⟨BF.clearCells tape ptr k, ptr + k, 1, inp, out⟩ ∧
    BF.clearCells tape ptr k j = if ptr ≤ j ∧ j < ptr + k then 0 else tape j := by
  subst hlen
  exact ⟨BF.optimize_szrun_append pre zrun post hall hk hpre hpost,
    BF.run_clearrange tape ptr zrun.length inp out hb,
    BF.clearCells_char tape ptr zrun.length hb j⟩

/-- Claim C2, witness: the amended statement applied to the concrete run
`[SetZero, SetZero]` in empty context. -/
theorem BF.C2_range_clear_amended_witness :
    BF.optimize ([] ++ [⟨.SET_ZERO, 1⟩, ⟨.SET_ZERO, 1⟩] ++ []) =
      BF.optimize [] ++ ⟨.CLEAR_RANGE, ((2 : Nat) : Int)⟩ :: BF.optimize [] ∧
    BF.run [⟨.CLEAR_RANGE, ((2 : Nat) : Int)⟩]
        (BF.jumps [⟨.CLEAR_RANGE, ((2 : Nat) : Int)⟩]) 1
        ⟨(fun _ => 0), 0, 0, [], []⟩ =
      ⟨BF.clearCells (fun _ => 0) 0 2, 0 + 2, 1, [], []⟩ ∧
    BF.clearCells (fun _ => 0) 0 2 1 = if 0 ≤ 1 ∧ 1 < 0 + 2 then 0 else (fun _ => (0 : Nat)) 1 :=
  BF.C2_range_clear_amended [] [⟨.SET_ZERO, 1⟩, ⟨.SET_ZERO, 1⟩] [] 2
    (fun _ => 0) 0 [] [] 1 (by decide) (by decide) (by decide)
    (by intro z hz; cases hz) (by intro z hz; cases hz) (by decide)

/-- Claim C3, counterexample. The source `<` compiles, executes to
completion with exit 0, and leaves the data pointer at 2^64 - 1: moving
the pointer below the tape is not detected, the pointer silently wraps in
size_t arithmetic and no error is reported. -/
theorem BF.C3_bounds_counterexample :
    BF.compile ("<".toList) = .ok [⟨.DEC_PTR, 1⟩] ∧
    (BF.run [⟨.DEC_PTR, 1⟩] (BF.jumps [⟨.DEC_PTR, 1⟩]) 1 (BF.initState [])).ptr =
      2 ^ 64 - 1 ∧
    (BF.run [⟨.DEC_PTR, 1⟩] (BF.jumps [⟨.DEC_PTR, 1⟩]) 1 (BF.initState [])).pc = 1 ∧
    BF.mainModel 1 ("<".toList) [] = (0, some []) ∧
    30000 ≤ 2 ^ 64 - 1 := by
  decide

/-- Claim C3, amended. The interpreter performs no bounds check: moving
the pointer `n` cells left from a fresh machine wraps it to
2^64 - n (size_t arithmetic), execution continues and terminates
normally, and the tape, input and output are untouched. -/
theorem BF.C3_pointer_wrap_amended (n : Nat) (inp : List Nat)
    (h1 : 1 ≤ n) (h2 : n ≤ BF.wordSize) :
    BF.run [⟨.DEC_PTR, (n : Int)⟩] (BF.jumps [⟨.DEC_PTR, (n : Int)⟩]) 1
        (BF.initState inp) =
      ⟨fun _ => 0, BF.wordSize - n, 1, inp, []⟩ :=
  BF.run_decptr n inp h1 h2

/-- Claim C3, witness: one step left from a fresh machine leaves the
pointer at 2^64 - 1. -/
theorem BF.C3_pointer_wrap_amended_witness :
    BF.run [⟨.DEC_PTR, ((1 : Nat) : Int)⟩]
        (BF.jumps [⟨.DEC_PTR, ((1 : Nat) : Int)⟩]) 1 (BF.initState []) =
      ⟨fun _ => 0, BF.wordSize - 1, 1, [], []⟩ :=
  BF.C3_pointer_wrap_amended 1 [] (by decide) (by norm_num [BF.wordSize])

/-- Claim C4, counterexample. Running `,` then `.` on an exhausted input
channel outputs the byte 255, not 0: `std::cin.get()` yields EOF = -1 and
the assignment to the unsigned-char cell stores 255. -/
theorem BF.C4_input_fill_counterexample :
    BF.mainModel 8 (",.".toList) [] = (0, some [255]) ∧ (255 : Nat) ≠ 0 := by
  decide

/-- Claim C4, amended. Input n reads n bytes, each overwriting the
current cell; when the channel holds fewer than n bytes every remaining
read stores 255 (the EOF fill value), and execution continues normally —
exhaustion is never an error. With at least n bytes available the cell
ends at the n-th byte and exactly n bytes are consumed. -/
theorem BF.C4_input_amended (n : Nat) (tape : Nat → Nat) (ptr : Nat)
    (inp out : List Nat) (h1 : 1 ≤ n) :
    (inp.length < n →
      BF.run [⟨.INPUT, (n : Int)⟩] (BF.jumps [⟨.INPUT, (n : Int)⟩]) 1
          ⟨tape, ptr, 0, inp, out⟩ =
        ⟨BF.upd tape ptr 255, ptr, 1, [], out⟩) ∧
    (n ≤ inp.length →
      BF.run [⟨.INPUT, (n : Int)⟩] (BF.jumps [⟨.INPUT, (n : Int)⟩]) 1
          ⟨tape, ptr, 0, inp, out⟩ =
        ⟨BF.upd tape ptr (inp.getD (n - 1) 0 % 256), ptr, 1, inp.drop n, out⟩) :=
  ⟨fun h2 => BF.run_input_exhausted n tape ptr inp out h1 h2,
   fun h2 => BF.run_input_enough n tape ptr inp out h1 h2⟩

/-- Claim C4, witness: reading two bytes from a one-byte channel stores
255; reading one byte from a two-byte channel stores that byte and leaves
the rest. -/
theorem BF.C4_input_amended_witness :
    BF.run [⟨.INPUT, ((2 : Nat) : Int)⟩] (BF.jumps [⟨.INPUT, ((2 : Nat) : Int)⟩]) 1
        ⟨(fun _ => 0), 0, 0, [7], []⟩ =
      ⟨BF.upd (fun _ => 0) 0 255, 0, 1, [], []⟩ ∧
    BF.run [⟨.INPUT, ((1 : Nat) : Int)⟩] (BF.jumps [⟨.INPUT, ((1 : Nat) : Int)⟩]) 1
        ⟨(fun _ => 0), 0, 0, [7, 8], []⟩ =
      ⟨BF.upd (fun _ => 0) 0 ([7, 8].getD (1 - 1) 0 % 256), 0, 1, [7, 8].drop 1, []⟩ :=
  ⟨(BF.C4_input_amended 2 (fun _ => 0) 0 [7] [] (by decide)).1 (by decide),
   (BF.C4_input_amended 1 (fun _ => 0) 0 [7, 8] [] (by decide)).2 (by decide)⟩

/-- Claim C5, counterexample. For the source `+++[` the compiler reports
the unmatched open bracket at position 1 — the index of the LoopStart in
the emitted instruction stream — while the offending source position is
3; position 1 of the source holds a plus, not an open bracket. -/
theorem BF.C5_open_position_counterexample :
    BF.compile ("+++[".toList) = .error (.unmatchedOpen 1) ∧
    ("+++[".toList)[1]? = some '+' ∧
    ('+' : Char) ≠ '[' ∧
    ("+++[".toList)[3]? = some '[' := by
  decide

/-- Claim C5, amended. Compilation fails exactly on sources whose bracket
structure is unbalanced (an unmatched close bracket, or a residual open
bracket after the scan); on failure the pipeline exits 1 without
optimizing or executing, on success it executes and exits 0; for an
unmatched close bracket the reported position is the source index of the
offending bracket. (For an unmatched open bracket the number reported is
the instruction-stream index the scan pushed, which can differ from the
source position — see the counterexample.) -/
theorem BF.C5_structural_errors_amended (src : List Char) (input : List Nat)
    (fuel p : Nat) :
    (BF.compOk (BF.compile src) = BF.balAux src 0) ∧
    (BF.compile src = .error (.unmatchedClose p) → src[p]? = some ']') ∧
    (∀ e, BF.compile src = .error e → BF.mainModel fuel src input = (1, none)) ∧
    (∀ bc, BF.compile src = .ok bc → (BF.mainModel fuel src input).1 = 0) := by
  refine ⟨?_, ?_, ?_, ?_⟩
  · have h := BF.compileF_ok_iff src.length src le_rfl 0 [] []
    simpa [BF.compile] using h
  · intro herr
    have h := BF.compileF_close_pos src.length src le_rfl 0 [] [] p herr
    simpa using h.2
  · intro e he
    rw [BF.mainModel, he]
  · intro bc hbc
    rw [BF.mainModel, hbc]

/-- Claim C5, witness: the amended statement at the source `]`, which is
unbalanced, reports position 0, and makes the pipeline exit 1. -/
theorem BF.C5_structural_errors_amended_witness :
    (BF.compOk (BF.compile ("]".toList)) = BF.balAux ("]".toList) 0) ∧
    (BF.compile ("]".toList) = .error (.unmatchedClose 0) →
      ("]".toList)[(0 : Nat)]? = some ']') ∧
    (∀ e, BF.compile ("]".toList) = .error e →
      BF.mainModel 1 ("]".toList) [] = (1, none)) ∧
    (∀ bc, BF.compile ("]".toList) = .ok bc →
      (BF.mainModel 1 ("]".toList) []).1 = 0) :=
  BF.C5_structural_errors_amended ("]".toList) [] 1 0

/-- Claim C6. Wherever the three-instruction zero-loop pattern JumpIfZero,
AddValue(-1), JumpIfNonZero (with equal jump annotations) occurs, one
optimizer pass replaces it by SetZero, and the replacement is
behavior-preserving: from any current cell value the original loop
terminates with that cell zeroed and no other effect on tape, pointer or
output, which is exactly what SetZero does. The equal-annotation side
condition is guaranteed for every stream the pipeline produces: the
fourth conjunct proves the compiler emits every jump with operand 0 and
all seven optimizer passes preserve that, so the rule fires on every
occurrence of the pattern in a pipeline stream. -/
theorem BF.C6_zero_loop (pre post : List BF.Instruction) (v : Int)
    (tape : Nat → Nat) (ptr c : Nat) (inp out : List Nat) (hc : c < 256) :
    BF.optimize (pre ++ ⟨.LOOP_START, v⟩ :: ⟨.DEC_VAL, 1⟩ :: ⟨.LOOP_END, v⟩ :: post) =
      BF.optimize pre ++ ⟨.SET_ZERO, 0⟩ :: BF.optimize post ∧
    BF.run [⟨.LOOP_START, v⟩, ⟨.DEC_VAL, 1⟩, ⟨.LOOP_END, v⟩]
        (BF.jumps [⟨.LOOP_START, v⟩, ⟨.DEC_VAL, 1⟩, ⟨.LOOP_END, v⟩]) (3 * c + 1)
        ⟨BF.upd tape ptr c, ptr, 0, inp, out⟩ =
      ⟨BF.upd tape ptr 0, ptr, 3, inp, out⟩ ∧
    BF.run [⟨.SET_ZERO, 0⟩] (BF.jumps [⟨.SET_ZERO, 0⟩]) 1
        ⟨BF.upd tape ptr c, ptr, 0, inp, out⟩ =
      ⟨BF.upd tape ptr 0, ptr, 1, inp, out⟩ ∧
    (∀ (src : List Char) (bc : List BF.Instruction) (k : Nat),
      BF.compile src = .ok bc →
      ∀ x ∈ BF.optIter k bc,
        (x.op = BF.Bytecode.LOOP_START ∨ x.op = BF.Bytecode.LOOP_END) →
        x.value = 0) :=
  ⟨BF.optimize_zeroloop_append pre post v,
   BF.run_zeroloop v tape ptr inp out c hc,
   BF.run_setzero 0 tape ptr c inp out,
   fun src bc k hbc =>
     BF.optIter_jumps_zero k bc
       (BF.compileF_jumps_zero src.length src 0 [] [] bc
         (fun x hx => absurd hx (List.not_mem_nil x)) hbc)⟩

/-- Claim C6, witness: the zero-loop pattern after an Output instruction
is replaced, the loop execution from cell value 2 zeroes the cell, and
every jump in every pipeline stream carries operand 0. -/
theorem BF.C6_zero_loop_witness :
    BF.optimize ([⟨.OUTPUT, 1⟩] ++ ⟨.LOOP_START, 0⟩ :: ⟨.DEC_VAL, 1⟩ ::
        ⟨.LOOP_END, 0⟩ :: [⟨.OUTPUT, 1⟩]) =
      BF.optimize [⟨.OUTPUT, 1⟩] ++ ⟨.SET_ZERO, 0⟩ :: BF.optimize [⟨.OUTPUT, 1⟩] ∧
    BF.run [⟨.LOOP_START, 0⟩, ⟨.DEC_VAL, 1⟩, ⟨.LOOP_END, 0⟩]
        (BF.jumps [⟨.LOOP_START, 0⟩, ⟨.DEC_VAL, 1⟩, ⟨.LOOP_END, 0⟩]) (3 * 2 + 1)
        ⟨BF.upd (fun _ => 0) 0 2, 0, 0, [], []⟩ =
      ⟨BF.upd (fun _ => 0) 0 0, 0, 3, [], []⟩ ∧
    BF.run [⟨.SET_ZERO, 0⟩] (BF.jumps [⟨.SET_ZERO, 0⟩]) 1
        ⟨BF.upd (fun _ => 0) 0 2, 0, 0, [], []⟩ =
      ⟨BF.upd (fun _ => 0) 0 0, 0, 1, [], []⟩ ∧
    (∀ (src : List Char) (bc : List BF.Instruction) (k : Nat),
      BF.compile src = .ok bc →
      ∀ x ∈ BF.optIter k bc,
        (x.op = BF.Bytecode.LOOP_START ∨ x.op = BF.Bytecode.LOOP_END) →
        x.value = 0) :=
  BF.C6_zero_loop [⟨.OUTPUT, 1⟩] [⟨.OUTPUT, 1⟩] 0 (fun _ => 0) 0 2 [] [] (by decide)

/-- Claim C7, counterexample. Compiling 256 plus characters yields one
AddValue whose operand is 256, not 256 mod 256 = 0: the compiler stores
the unreduced run length. -/
theorem BF.C7_operand_counterexample :
    BF.compile (List.replicate 256 '+') = .ok [⟨.INC_VAL, 256⟩] ∧
    (256 : Int) % 256 = 0 ∧
    (256 : Int) ≠ 256 % 256 := by
  decide

/-- Claim C7, amended. Compiling N consecutive plus characters (N ≥ 1)
yields exactly one AddValue instruction whose operand is the unreduced
count N; executing it adds N to the current cell modulo 256, which
coincides with adding N mod 256 modulo 256 (the wraparound the claim
describes happens at execution, not in the stored operand). -/
theorem BF.C7_run_length_amended (N : Nat) (tape : Nat → Nat) (ptr : Nat)
    (inp out : List Nat) (h : 1 ≤ N) :
    BF.compile (List.replicate N '+') = .ok [⟨.INC_VAL, (N : Int)⟩] ∧
    BF.run [⟨.INC_VAL, (N : Int)⟩] (BF.jumps [⟨.INC_VAL, (N : Int)⟩]) 1
        ⟨tape, ptr, 0, inp, out⟩ =
      ⟨BF.upd tape ptr (BF.byteAdd (tape ptr) (N : Int)), ptr, 1, inp, out⟩ ∧
    (∀ c : Nat, BF.byteAdd c (N : Int) =
      (((c : Int) + (N : Int) % 256) % 256).toNat) :=
  ⟨BF.compile_replicate_plus N h,
   BF.run_incval tape ptr inp out (N : Int),
   fun c => BF.byteAdd_mod c (N : Int)⟩

/-- Claim C7, witness: the amended statement at N = 257. -/
theorem BF.C7_run_length_amended_witness :
    BF.compile (List.replicate 257 '+') = .ok [⟨.INC_VAL, ((257 : Nat) : Int)⟩] ∧
    BF.run [⟨.INC_VAL, ((257 : Nat) : Int)⟩]
        (BF.jumps [⟨.INC_VAL, ((257 : Nat) : Int)⟩]) 1
        ⟨(fun _ => 0), 0, 0, [], []⟩ =
      ⟨BF.upd (fun _ => 0) 0 (BF.byteAdd ((fun _ => (0 : Nat)) 0) ((257 : Nat) : Int)),
        0, 1, [], []⟩ ∧
    (∀ c : Nat, BF.byteAdd c ((257 : Nat) : Int) =
      (((c : Int) + ((257 : Nat) : Int) % 256) % 256).toNat) :=
  BF.C7_run_length_amended 257 (fun _ => 0) 0 [] [] (by decide)

/-- Claim C8. The full pipeline (compile, seven optimizer passes, execute
on a fresh machine) on the source `>+>->->+<[[-]<].>.>.>.>.` exits 0 and
produces exactly the five output bytes 0, 0, 0, 0, 1, for every input
byte sequence (the stream contains no Input instruction, so the input
channel is never read). -/
theorem BF.C8_literal_scenario (input : List Nat) :
    BF.mainModel 64 (">+>->->+<[[-]<].>.>.>.>.".toList) input =
      (0, some [0, 0, 0, 0, 1]) := by
  rw [BF.mainModel_input_irrel 64 (">+>->->+<[[-]<].>.>.>.>.".toList) (by decide)
    input []]
  decide

/-- Claim C9. In the part_000 variant, the multiply-accumulate rewrite is
not the AddToOffset semantics the claim describes: for `++[->+++<]>.` the
raw stream outputs byte 6 (the loop adds 3 twice into the next cell), but
the stream its optimizer produces outputs byte 4 — the single
ADD_SUBTRACT_LOOP instruction keeps only the add amount 3 and execution
adds the origin cell once to each of the next three cells instead of
adding 3 times the origin to the cell at offset one (the pass also
duplicates the unmerged AddValue and MovePointer instructions). -/
theorem P0.C9_add_subtract_loop_divergence :
    P0.compile ("++[->+++<]>.".toList) =
      .ok [⟨.INC_VAL, 2⟩, ⟨.LOOP_START, 0⟩, ⟨.DEC_VAL, 1⟩, ⟨.INC_PTR, 1⟩,
        ⟨.INC_VAL, 3⟩, ⟨.DEC_PTR, 1⟩, ⟨.LOOP_END, 0⟩, ⟨.INC_PTR, 1⟩, ⟨.OUTPUT, 1⟩] ∧
    (P0.run [⟨.INC_VAL, 2⟩, ⟨.LOOP_START, 0⟩, ⟨.DEC_VAL, 1⟩, ⟨.INC_PTR, 1⟩,
        ⟨.INC_VAL, 3⟩, ⟨.DEC_PTR, 1⟩, ⟨.LOOP_END, 0⟩, ⟨.INC_PTR, 1⟩, ⟨.OUTPUT, 1⟩]
        64 (BF.initState [])).output = [6] ∧
    P0.optimize [⟨.INC_VAL, 2⟩, ⟨.LOOP_START, 0⟩, ⟨.DEC_VAL, 1⟩, ⟨.INC_PTR, 1⟩,
        ⟨.INC_VAL, 3⟩, ⟨.DEC_PTR, 1⟩, ⟨.LOOP_END, 0⟩, ⟨.INC_PTR, 1⟩, ⟨.OUTPUT, 1⟩] =
      [⟨.INC_VAL, 2⟩, ⟨.INC_VAL, 2⟩, ⟨.ADD_SUBTRACT_LOOP, 3⟩, ⟨.INC_PTR, 1⟩,
        ⟨.INC_PTR, 1⟩, ⟨.OUTPUT, 1⟩] ∧
    (P0.run [⟨.INC_VAL, 2⟩, ⟨.INC_VAL, 2⟩, ⟨.ADD_SUBTRACT_LOOP, 3⟩, ⟨.INC_PTR, 1⟩,
        ⟨.INC_PTR, 1⟩, ⟨.OUTPUT, 1⟩] 64 (BF.initState [])).output = [4] ∧
    (6 : Nat) ≠ 4 := by
  decide

/-- Claim C10. The pipeline is deterministic: compiling, optimizing and
executing are pure functions of the source text and the input bytes, so
two runs on identical sources and identical inputs produce identical
compilation results, identical optimized instruction streams, identical
exit codes and outputs, and identical final machine states (tape, pointer
and all) at every fuel bound. -/
theorem BF.C10_determinism (src1 src2 : List Char) (in1 in2 : List Nat) (fuel : Nat)
    (hs : src1 = src2) (hi : in1 = in2) :
    BF.compile src1 = BF.compile src2 ∧
    (BF.compile src1).map (BF.optIter 7) = (BF.compile src2).map (BF.optIter 7) ∧
    BF.mainModel fuel src1 in1 = BF.mainModel fuel src2 in2 ∧
    (∀ bc : List BF.Instruction,
      BF.run (BF.optIter 7 bc) (BF.jumps (BF.optIter 7 bc)) fuel (BF.initState in1) =
        BF.run (BF.optIter 7 bc) (BF.jumps (BF.optIter 7 bc)) fuel
          (BF.initState in2)) := by
  subst hs
  subst hi
  exact ⟨rfl, rfl, rfl, fun _ => rfl⟩

/-- Claim C10, witness: the two-run statement at a concrete source and
input. -/
theorem BF.C10_determinism_witness :
    BF.compile ("+.".toList) = BF.compile ("+.".toList) ∧
    (BF.compile ("+.".toList)).map (BF.optIter 7) =
      (BF.compile ("+.".toList)).map (BF.optIter 7) ∧
    BF.mainModel 4 ("+.".toList) [9] = BF.mainModel 4 ("+.".toList) [9] ∧
    (∀ bc : List BF.Instruction,
      BF.run (BF.optIter 7 bc) (BF.jumps (BF.optIter 7 bc)) 4 (BF.initState [9]) =
        BF.run (BF.optIter 7 bc) (BF.jumps (BF.optIter 7 bc)) 4 (BF.initState [9])) :=
  BF.C10_determinism ("+.".toList) ("+.".toList) [9] [9] 4 rfl rfl
